import Mathlib

/-!
# LinkCheck: the state store and the persistent task queue

A shallow embedding of `pkg/types/types.go`, `internal/storage/storage.go` and
`internal/queue/queue.go`, followed by the properties proved about them.

Conventions of the embedding
* Go `int` is `Int`. The only arithmetic the code performs on an `int` is the
  increment of the batch counter, which starts at 1 and grows by one with every
  batch kept in the map; the increment is not wrapped at 64 bits. Decoding a
  snapshot checks the range of `int`.
* Go `string` is `GoString`, a sequence of bytes; a string literal of the source is the
  UTF-8 encoding of its text. Error messages, which no property depends on, are `String`.
* A Go map is a `GoMap` (a finite list of bindings read by key); a nil map or a
  nil slice is `none`.
* A run-time panic is the result `none` of an operation returning `Option`.
* The mutexes of `Storage` and `Queue` are the atomicity of the functions below:
  each function is one critical section.
-/

namespace LinkCheck

/-! ## Go strings and UTF-8 -/

/-- A Go string: a sequence of bytes, not necessarily valid UTF-8. -/
structure GoString where
  bytes : List (Fin 256)
deriving DecidableEq, Repr

/-- The UTF-8 encoding of a code point, as byte values. -/
def encodeRune (c : Nat) : List Nat :=
  if c < 0x80 then [c]
  else if c < 0x800 then [0xC0 + c / 64, 0x80 + c % 64]
  else if c < 0x10000 then [0xE0 + c / 4096, 0x80 + c / 64 % 64, 0x80 + c % 64]
  else [0xF0 + c / 262144, 0x80 + c / 4096 % 64, 0x80 + c / 64 % 64, 0x80 + c % 64]

/-- The UTF-8 encoding of a sequence of code points. -/
def encodeRunes : List Nat → List Nat
  | [] => []
  | c :: cs => encodeRune c ++ encodeRunes cs

/-- A continuation byte. -/
def isCont (b : Nat) : Bool := decide (0x80 ≤ b) && decide (b ≤ 0xBF)

/-- The code point `utf8.RuneError`, U+FFFD. -/
def runeError : Nat := 0xFFFD

/-- The function `utf8.DecodeRune`: the first code point of the bytes and its width;
`(RuneError, 1)` when the bytes do not start with a valid encoding. -/
def decodeRune : List Nat → Nat × Nat
  | [] => (runeError, 0)
  | b0 :: rest =>
    if b0 < 0x80 then (b0, 1)
    else if 0xC2 ≤ b0 ∧ b0 ≤ 0xDF then
      match rest with
      | b1 :: _ =>
        if isCont b1 then ((b0 - 0xC0) * 64 + (b1 - 0x80), 2) else (runeError, 1)
      | _ => (runeError, 1)
    else if 0xE0 ≤ b0 ∧ b0 ≤ 0xEF then
      match rest with
      | b1 :: b2 :: _ =>
        if (if b0 = 0xE0 then 0xA0 else 0x80) ≤ b1 ∧ b1 ≤ (if b0 = 0xED then 0x9F else 0xBF) ∧
            isCont b2 then
          ((b0 - 0xE0) * 4096 + (b1 - 0x80) * 64 + (b2 - 0x80), 3)
        else (runeError, 1)
      | _ => (runeError, 1)
    else if 0xF0 ≤ b0 ∧ b0 ≤ 0xF4 then
      match rest with
      | b1 :: b2 :: b3 :: _ =>
        if (if b0 = 0xF0 then 0x90 else 0x80) ≤ b1 ∧ b1 ≤ (if b0 = 0xF4 then 0x8F else 0xBF) ∧
            isCont b2 ∧ isCont b3 then
          ((b0 - 0xF0) * 262144 + (b1 - 0x80) * 4096 + (b2 - 0x80) * 64 + (b3 - 0x80), 4)
        else (runeError, 1)
      | _ => (runeError, 1)
    else (runeError, 1)

/-- The code points `encoding/json` writes for the bytes of a string: each valid
encoding gives its code point, each other byte gives U+FFFD. `fuel` bounds the number
of code points. -/
def decodeRunes : Nat → List Nat → List Nat
  | 0, _ => []
  | _, [] => []
  | fuel + 1, b :: rest =>
    (decodeRune (b :: rest)).1 :: decodeRunes fuel ((b :: rest).drop (decodeRune (b :: rest)).2)

/-- A byte from its value. -/
def toByte (n : Nat) : Fin 256 := ⟨n % 256, Nat.mod_lt n (by decide)⟩

namespace GoString

/-- The Go string holding the UTF-8 encoding of a text. -/
def ofText (s : String) : GoString :=
  ⟨(encodeRunes (s.data.map Char.toNat)).map toByte⟩

/-- The text `encoding/json` writes for a Go string: invalid bytes become U+FFFD. -/
def toText (g : GoString) : String :=
  ⟨(decodeRunes g.bytes.length (g.bytes.map Fin.val)).map Char.ofNat⟩

end GoString

instance : Coe String GoString := ⟨GoString.ofText⟩

/-! ## Go maps -/

/-- A Go map value: finitely many bindings. Reading uses the first binding of a key. -/
structure GoMap (κ ν : Type) where
  entries : List (κ × ν)
deriving DecidableEq, Repr

namespace GoMap

variable {κ ν : Type}

/-- The result of `make(map[K]V)`. -/
def empty : GoMap κ ν := ⟨[]⟩

/-- Association-list lookup behind `v, ok := m[k]`. -/
def lookupIn [DecidableEq κ] : List (κ × ν) → κ → Option ν
  | [], _ => none
  | (k', v) :: rest, k => if k' = k then some v else lookupIn rest k

/-- The read `v, ok := m[k]`: `some v` when `ok`, otherwise `none`. -/
def get [DecidableEq κ] (m : GoMap κ ν) (k : κ) : Option ν := lookupIn m.entries k

/-- Drops every binding of a key. -/
def eraseIn [DecidableEq κ] : List (κ × ν) → κ → List (κ × ν)
  | [], _ => []
  | (k', v) :: rest, k => if k' = k then eraseIn rest k else (k', v) :: eraseIn rest k

/-- The write `m[k] = v`: the binding of `k` is replaced. -/
def set [DecidableEq κ] (m : GoMap κ ν) (k : κ) (v : ν) : GoMap κ ν :=
  ⟨(k, v) :: eraseIn m.entries k⟩

/-- The keys of the map, each listed once. -/
def keys [DecidableEq κ] (m : GoMap κ ν) : List κ := (m.entries.map Prod.fst).dedup

/-- The value of `len(m)`. -/
def len [DecidableEq κ] (m : GoMap κ ν) : Nat := (keys m).length

end GoMap

/-- Reading a possibly nil map: a nil map has no key. -/
def nilGet {κ ν : Type} [DecidableEq κ] (m : Option (GoMap κ ν)) (k : κ) : Option ν :=
  match m with
  | none => none
  | some g => g.get k

/-- The bindings a `range` loop visits: none for a nil map. -/
def nilEntries {κ ν : Type} (m : Option (GoMap κ ν)) : List (κ × ν) :=
  match m with
  | none => []
  | some g => g.entries

/-! ## `pkg/types` -/

/-- The Go type `LinkStatus` is a string type. -/
abbrev LinkStatus := GoString

def StatusAvailable : LinkStatus := "available"

structure LinksSet where
  LinksNum : Int
  Links : Option (GoMap GoString LinkStatus)
deriving DecidableEq, Repr

structure PendingTask where
  LinksNum : Int
  URL : GoString
  Status : GoString
deriving DecidableEq, Repr

structure State where
  LinksSets : Option (GoMap Int LinksSet)
  NextLinksNum : Int
  PendingTasks : Option (List PendingTask)
deriving DecidableEq, Repr

/-- The elements of a possibly nil slice. -/
def sliceElems {α : Type} (s : Option (List α)) : List α := s.getD []

/-- The loop `linksCopy := make(...); for url, status := range links { linksCopy[url] = status }`.
Go leaves the iteration order of a map unspecified. -/
def copyLinks (links : Option (GoMap GoString LinkStatus)) : GoMap GoString LinkStatus :=
  (nilEntries links).foldr (fun e acc => acc.set e.1 e.2) GoMap.empty

/-! ## `internal/storage` : in-memory operations -/

/-- The store: the state behind the `state` pointer. -/
structure Storage where
  state : State
deriving DecidableEq, Repr

namespace Storage

/-- The state `NewStorage` builds before it calls `Load`. -/
def initialState : State :=
  { LinksSets := some GoMap.empty, NextLinksNum := 1, PendingTasks := some [] }

/-- Deep copy of one batch, as made by `GetState` and `GetLinksSets`. -/
def copySet (v : LinksSet) : LinksSet :=
  { LinksNum := v.LinksNum, Links := some (copyLinks v.Links) }

/-- Method `GetState`: a deep copy of the state. -/
def GetState (s : Storage) : State :=
  { LinksSets :=
      some ((nilEntries s.state.LinksSets).foldr
        (fun e acc => acc.set e.1 (copySet e.2)) GoMap.empty)
    NextLinksNum := s.state.NextLinksNum
    PendingTasks := some (sliceElems s.state.PendingTasks) }

/-- Method `AddLinksSet`: stores the batch under the counter, increments the counter and
returns the id. Writing to a nil map panics. -/
def AddLinksSet (s : Storage) (links : Option (GoMap GoString LinkStatus)) :
    Option (Storage × Int) :=
  let linksNum := s.state.NextLinksNum
  match s.state.LinksSets with
  | none => none
  | some g =>
    some (⟨{ s.state with
              LinksSets := some (g.set linksNum { LinksNum := linksNum, Links := links })
              NextLinksNum := s.state.NextLinksNum + 1 }⟩, linksNum)

/-- Method `GetLinksSets`: the loop over the requested numbers, starting from an empty result. -/
def GetLinksSets (s : Storage) (linksNums : List Int) : GoMap Int LinksSet :=
  linksNums.foldl
    (fun result num =>
      match nilGet s.state.LinksSets num with
      | some set => result.set num (copySet set)
      | none => result)
    GoMap.empty

/-- Method `AddPendingTask`: `append` to the pending slice. -/
def AddPendingTask (s : Storage) (task : PendingTask) : Storage :=
  ⟨{ s.state with PendingTasks := some (sliceElems s.state.PendingTasks ++ [task]) }⟩

/-- The loop of `RemovePendingTask`: drops the first element matching the pair. -/
def removeFirst (linksNum : Int) (url : GoString) : List PendingTask → List PendingTask
  | [] => []
  | task :: rest =>
    if task.LinksNum = linksNum ∧ task.URL = url then rest
    else task :: removeFirst linksNum url rest

/-- Method `RemovePendingTask`. A nil slice has no element and stays nil. -/
def RemovePendingTask (s : Storage) (linksNum : Int) (url : GoString) : Storage :=
  ⟨{ s.state with PendingTasks := s.state.PendingTasks.map (removeFirst linksNum url) }⟩

/-- Method `GetPendingTasks`: a copy of the pending slice. -/
def GetPendingTasks (s : Storage) : List PendingTask := sliceElems s.state.PendingTasks

/-- Method `UpdateLinksSetStatus`: writes the status when the batch exists, otherwise nothing. -/
def UpdateLinksSetStatus (s : Storage) (linksNum : Int) (url : GoString) (status : LinkStatus) :
    Storage :=
  match s.state.LinksSets with
  | none => s
  | some g =>
    match g.get linksNum with
    | some set =>
      let links := match set.Links with
        | none => GoMap.empty
        | some l => l
      ⟨{ s.state with
          LinksSets := some (g.set linksNum { set with Links := some (links.set url status) }) }⟩
    | none => s

end Storage

/-! ## Sequences of store operations -/

/-- One call on the store, with its arguments. -/
inductive Op where
  | addLinksSet (links : Option (GoMap GoString LinkStatus))
  | addPendingTask (task : PendingTask)
  | removePendingTask (linksNum : Int) (url : GoString)
  | updateLinksSetStatus (linksNum : Int) (url : GoString) (status : LinkStatus)
  | getLinksSets (linksNums : List Int)
  | getState
  | getPendingTasks

/-- The store after the call, and the id the call returned when it is `AddLinksSet`. -/
def Op.apply (s : Storage) : Op → Option (Storage × Option Int)
  | .addLinksSet links => (s.AddLinksSet links).map (fun r => (r.1, some r.2))
  | .addPendingTask task => some (s.AddPendingTask task, none)
  | .removePendingTask linksNum url => some (s.RemovePendingTask linksNum url, none)
  | .updateLinksSetStatus linksNum url status =>
    some (s.UpdateLinksSetStatus linksNum url status, none)
  | .getLinksSets _ => some (s, none)
  | .getState => some (s, none)
  | .getPendingTasks => some (s, none)

/-- Runs the calls in order; yields the final store and the ids returned by the
`AddLinksSet` calls, in call order. -/
def runOps : Storage → List Op → Option (Storage × List Int)
  | s, [] => some (s, [])
  | s, op :: rest =>
    match op.apply s with
    | none => none
    | some (s1, r) =>
      match runOps s1 rest with
      | none => none
      | some (s2, ids) => some (s2, r.toList ++ ids)

/-- The number of `AddLinksSet` calls in a sequence. -/
def countAdds : List Op → Nat
  | [] => 0
  | .addLinksSet _ :: rest => countAdds rest + 1
  | _ :: rest => countAdds rest

/-! ## The snapshot file

`Save` and `Load` go through `encoding/json`. A file whose content is the JSON text
of an object with exactly the members `links_sets`, `next_links_num` and
`pending_tasks`, each of the form `MarshalIndent` gives it, is represented by that
document (`StateDoc`); for such a document `json.Unmarshal` is modelled below. Any
other non-empty content is represented by what `json.Unmarshal` returns for it, which
is left open. Strings of a document are texts; the keys of a `map[int]` are decimal
numerals; a nil map or slice is `null` (`none`). -/

/-- The JSON form of a `LinksSet`: the number and `null` or the members of `links`. -/
structure LinksSetDoc where
  links_num : Int
  links : Option (List (String × String))
deriving DecidableEq, Repr

/-- The JSON form of a `PendingTask`. -/
structure PendingTaskDoc where
  links_num : Int
  url : String
  status : String
deriving DecidableEq, Repr

/-- The JSON form of a `State`: `null` or the members of `links_sets` (name and batch),
the counter, and `null` or the elements of `pending_tasks`. -/
structure StateDoc where
  links_sets : Option (List (String × LinksSetDoc))
  next_links_num : Int
  pending_tasks : Option (List PendingTaskDoc)
deriving DecidableEq, Repr

/-- The integers a Go `int` holds. -/
def InInt64 (n : Int) : Prop := -9223372036854775808 ≤ n ∧ n ≤ 9223372036854775807

instance (n : Int) : Decidable (InInt64 n) := by
  unfold InInt64
  exact inferInstance

/-- The decimal digit `d` as a character. -/
def digitChar (d : Nat) : Char := Char.ofNat (48 + d)

/-- The decimal digits of `n`, least significant first; `fuel` bounds the length. -/
def digitsLE : Nat → Nat → List Nat
  | 0, _ => []
  | fuel + 1, n => if n < 10 then [n] else (n % 10) :: digitsLE fuel (n / 10)

/-- The decimal numeral of a natural number. -/
def formatNat (n : Nat) : List Char := ((digitsLE (n + 1) n).reverse).map digitChar

/-- The function `strconv.FormatInt(i, 10)`. -/
def formatInt : Int → String
  | .ofNat n => ⟨formatNat n⟩
  | .negSucc n => ⟨'-' :: formatNat (n + 1)⟩

/-- The value of a decimal digit character. -/
def digitVal (c : Char) : Option Nat :=
  if 48 ≤ c.toNat ∧ c.toNat ≤ 57 then some (c.toNat - 48) else none

/-- Reads digits left to right onto an accumulator; fails on a non-digit. -/
def parseDigits : Nat → List Char → Option Nat
  | acc, [] => some acc
  | acc, c :: rest =>
    match digitVal c with
    | none => none
    | some d => parseDigits (acc * 10 + d) rest

/-- A non-empty run of decimal digits. -/
def parseNat : List Char → Option Nat
  | [] => none
  | cs => parseDigits 0 cs

/-- An optional sign, then digits. -/
def parseSigned (s : String) : Option Int :=
  match s.data with
  | [] => none
  | c :: cs =>
    if c = '-' then (parseNat cs).map (fun n => - (n : Int))
    else if c = '+' then (parseNat cs).map (fun n => (n : Int))
    else (parseNat (c :: cs)).map (fun n => (n : Int))

/-- The function `strconv.ParseInt(s, 10, 64)`: a signed decimal numeral whose value
is within the range of `int64`. -/
def parseInt (s : String) : Option Int :=
  match parseSigned s with
  | none => none
  | some n => if InInt64 n then some n else none

/-- Lexicographic comparison of two sequences by the values of their elements: `a ≤ b`. -/
def seqLe : List Nat → List Nat → Bool
  | [], _ => true
  | _ :: _, [] => false
  | a :: as, b :: bs =>
    if a < b then true
    else if a = b then seqLe as bs
    else false

/-- Byte-wise comparison of Go strings. -/
def goStringLe (a b : GoString) : Bool := seqLe (a.bytes.map Fin.val) (b.bytes.map Fin.val)

/-- Byte-wise comparison of decimal numerals. -/
def numeralLe (a b : String) : Bool := seqLe (a.data.map Char.toNat) (b.data.map Char.toNat)

/-- Sorts the bindings of a map by key, as `Marshal` does before it writes them. -/
def sortMembers {κ α : Type} (le : κ → κ → Bool) (l : List (κ × α)) : List (κ × α) :=
  l.insertionSort (fun a b => le a.1 b.1 = true)

/-- Encoding of a `map[string]LinkStatus`: the keys sorted as Go strings, then each key
and value written as text. -/
def marshalLinks : Option (GoMap GoString LinkStatus) → Option (List (String × String))
  | none => none
  | some g =>
    some ((sortMembers goStringLe (g.keys.map (fun k => (k, (g.get k).getD ⟨[]⟩)))).map
      (fun e => (e.1.toText, e.2.toText)))

/-- Encoding of a `LinksSet`. -/
def marshalLinksSet (v : LinksSet) : LinksSetDoc :=
  { links_num := v.LinksNum, links := marshalLinks v.Links }

/-- Encoding of a `map[int]LinksSet`: the keys in decimal, sorted as strings. -/
def marshalLinksSets : Option (GoMap Int LinksSet) → Option (List (String × LinksSetDoc))
  | none => none
  | some g =>
    some (sortMembers numeralLe (g.keys.map (fun k =>
      (formatInt k, marshalLinksSet ((g.get k).getD ⟨0, none⟩)))))

/-- Encoding of a `PendingTask`. -/
def marshalPendingTask (t : PendingTask) : PendingTaskDoc :=
  { links_num := t.LinksNum, url := t.URL.toText, status := t.Status.toText }

/-- Encoding of a `[]PendingTask`. -/
def marshalPendingTasks : Option (List PendingTask) → Option (List PendingTaskDoc)
  | none => none
  | some ts => some (ts.map marshalPendingTask)

/-- The document `json.MarshalIndent(s.state, "", "  ")` writes. -/
def marshalState (s : State) : StateDoc :=
  { links_sets := marshalLinksSets s.LinksSets
    next_links_num := s.NextLinksNum
    pending_tasks := marshalPendingTasks s.PendingTasks }

/-- Decoding an integer literal into an `int`: an error when it is out of range. -/
def decodeInt (n : Int) : Except String Int :=
  if InInt64 n then .ok n
  else .error "json: cannot unmarshal number into Go value of type int"

/-- Decodes the members of an object into a map, in order: each value is decoded by
`elem` into a fresh element, each name is read by `key`, a later member replaces an
earlier one of the same key. -/
def decodeMembers {κ ν δ : Type} [DecidableEq κ] (key : String → Option κ)
    (elem : δ → Except String ν) :
    GoMap κ ν → List (String × δ) → Except String (GoMap κ ν)
  | m, [] => .ok m
  | m, (name, value) :: rest =>
    match elem value with
    | .error e => .error e
    | .ok v =>
      match key name with
      | none => .error "json: cannot unmarshal number into Go map key"
      | some k => decodeMembers key elem (m.set k v) rest

/-- Decoding into a map: `null` gives nil, an object gives a new map of its members. -/
def decodeMap {κ ν δ : Type} [DecidableEq κ] (key : String → Option κ)
    (elem : δ → Except String ν) :
    Option (List (String × δ)) → Except String (Option (GoMap κ ν))
  | none => .ok none
  | some members =>
    match decodeMembers key elem GoMap.empty members with
    | .error e => .error e
    | .ok m => .ok (some m)

/-- Decoding into a `LinksSet`. -/
def decodeLinksSet (d : LinksSetDoc) : Except String LinksSet :=
  match decodeInt d.links_num with
  | .error e => .error e
  | .ok n =>
    match decodeMap (fun name => some (GoString.ofText name))
        (fun value : String => Except.ok (GoString.ofText value)) d.links with
    | .error e => .error e
    | .ok links => .ok { LinksNum := n, Links := links }

/-- Decoding into a `PendingTask`. -/
def decodePendingTask (d : PendingTaskDoc) : Except String PendingTask :=
  match decodeInt d.links_num with
  | .error e => .error e
  | .ok n => .ok { LinksNum := n, URL := GoString.ofText d.url, Status := GoString.ofText d.status }

/-- Decodes the elements of an array, in order. -/
def decodeElems {α δ : Type} (elem : δ → Except String α) : List δ → Except String (List α)
  | [] => .ok []
  | j :: rest =>
    match elem j with
    | .error e => .error e
    | .ok a =>
      match decodeElems elem rest with
      | .error e => .error e
      | .ok as => .ok (a :: as)

/-- Decoding into a slice: `null` gives nil, an array gives its elements. -/
def decodeSlice {α δ : Type} (elem : δ → Except String α) :
    Option (List δ) → Except String (Option (List α))
  | none => .ok none
  | some elems =>
    match decodeElems elem elems with
    | .error e => .error e
    | .ok l => .ok (some l)

/-- The result of `json.Unmarshal(data, &state)` into a zero `State` when `data` is the
text of the document. -/
def unmarshalState (doc : StateDoc) : Except String State :=
  match decodeMap parseInt decodeLinksSet doc.links_sets with
  | .error e => .error e
  | .ok sets =>
    match decodeInt doc.next_links_num with
    | .error e => .error e
    | .ok next =>
      match decodeSlice decodePendingTask doc.pending_tasks with
      | .error e => .error e
      | .ok tasks => .ok { LinksSets := sets, NextLinksNum := next, PendingTasks := tasks }

/-- The content of a file that is not empty. -/
inductive FileData where
  /-- The text of a document of the form `MarshalIndent` gives a `State`. -/
  | document (doc : StateDoc)
  /-- Any other content, given by what `json.Unmarshal(data, &state)` returns for it:
  an error, or the state decoded into the zero `State`. -/
  | other (decoded : Except String State)

/-- The call `json.Unmarshal(data, &state)` with `state` the zero `State`. -/
def jsonUnmarshal : FileData → Except String State
  | .document doc => unmarshalState doc
  | .other decoded => decoded

/-- The file `state.json`, as `os.ReadFile` sees it. -/
inductive Snapshot where
  /-- There is no file: `ReadFile` fails with an error for which `os.IsNotExist` holds. -/
  | missing
  /-- The file exists and `ReadFile` fails. -/
  | unreadable
  /-- The file has length zero. -/
  | zeroBytes
  /-- The file has this content, which is not empty. -/
  | data (content : FileData)

/-- What `os.WriteFile` did: it wrote all the data, or it failed and left the file in
some condition. -/
inductive WriteOutcome where
  | written
  | failed (left : Snapshot)

namespace Storage

/-- Method `Load`: reads the snapshot into the store. Returns the store and the error. -/
def Load (s : Storage) (disk : Snapshot) : Storage × Except String Unit :=
  match disk with
  | .missing => (s, .ok ())
  | .unreadable => (s, .error "read state.json")
  | .zeroBytes => (s, .ok ())
  | .data content =>
    match jsonUnmarshal content with
    | .error e => (s, .error ("не удалось распарсить состояние: " ++ e))
    | .ok state =>
      let state :=
        if state.LinksSets = none then { state with LinksSets := some GoMap.empty } else state
      let state :=
        if state.PendingTasks = none then { state with PendingTasks := some [] } else state
      (⟨state⟩, .ok ())

/-- Function `NewStorage`: the initial store, loaded from the snapshot. -/
def NewStorage (disk : Snapshot) : Except String Storage :=
  match Load ⟨initialState⟩ disk with
  | (_, .error e) => .error ("не удалось загрузить состояние: " ++ e)
  | (s, .ok ()) => .ok s

/-- Method `Save`: writes the encoding of the state (encoding a `State` does not fail).
Returns the file afterwards and the error. -/
def Save (s : Storage) (w : WriteOutcome) : Snapshot × Except String Unit :=
  let data := marshalState s.state
  match w with
  | .written => (.data (.document data), .ok ())
  | .failed left => (left, .error "не удалось записать файл")

end Storage

/-! ## `internal/queue` -/

structure Task where
  LinksNum : Int
  URL : GoString
deriving DecidableEq, Repr

/-- The queue: the store it shares, the buffer of `taskChan` (oldest first) and the
flags. `Shutdown` closes the channel in the step that sets `isShuttingDown`. -/
structure Queue where
  storage : Storage
  workers : Nat
  taskChan : List Task
  isShuttingDown : Bool
  cancelled : Bool
deriving DecidableEq, Repr

/-- The capacity given to `make(chan Task, 100)`. -/
def taskChanCap : Nat := 100

/-- How the `select` of `Enqueue` ended: the send went through, or the second elapsed. -/
inductive SendOutcome where
  | sent
  | timedOut
deriving DecidableEq, Repr

/-- How the wait of `Shutdown` ended. -/
inductive WaitOutcome where
  | done
  | timeout
deriving DecidableEq, Repr

namespace Queue

/-- Function `NewQueue`: an empty buffer, no flag set. -/
def NewQueue (storage : Storage) (workers : Nat) : Queue :=
  { storage := storage, workers := workers, taskChan := [], isShuttingDown := false,
    cancelled := false }

/-- The statement `select { case q.taskChan <- t: default: }` with nobody receiving. -/
def trySend (chan : List Task) (t : Task) : List Task :=
  if chan.length < taskChanCap then chan ++ [t] else chan

/-- Method `restorePendingTasks`: a non-blocking send for every marker whose status is
"pending", over a copy of the pending list. -/
def restorePendingTasks (q : Queue) : Queue :=
  let pendingTasks := q.storage.GetPendingTasks
  { q with
    taskChan := pendingTasks.foldl
      (fun chan task =>
        if task.Status = ("pending" : GoString) then trySend chan ⟨task.LinksNum, task.URL⟩
        else chan)
      q.taskChan }

/-- Method `Start`: the workers are launched, then the pending tasks are restored. -/
def Start (q : Queue) : Queue := restorePendingTasks q

/-- The loop of `updateTaskStatus` on its copy of the pending list. -/
def markFirst (linksNum : Int) (url : GoString) (status : GoString) :
    List PendingTask → List PendingTask
  | [] => []
  | task :: rest =>
    if task.LinksNum = linksNum ∧ task.URL = url then { task with Status := status } :: rest
    else task :: markFirst linksNum url status rest

/-- Method `updateTaskStatus`: the store is left as it is; the result is the local copy the
function modified and dropped. -/
def updateTaskStatus (q : Queue) (linksNum : Int) (url : GoString) (status : GoString) :
    Queue × List PendingTask :=
  (q, markFirst linksNum url status q.storage.GetPendingTasks)

/-- One iteration of the loop of `worker` that receives a task: `checkLink` is what
`CheckLink` answers, `w` is what the write of `Save` does. There is no such
iteration when the buffer is empty. -/
def workerStep (q : Queue) (checkLink : GoString → LinkStatus) (w : WriteOutcome) :
    Option (Queue × Snapshot) :=
  match q.taskChan with
  | [] => none
  | task :: rest =>
    let q := { q with taskChan := rest }
    let q := (updateTaskStatus q task.LinksNum task.URL "processing").1
    let status := checkLink task.URL
    let storage := q.storage.UpdateLinksSetStatus task.LinksNum task.URL status
    let storage := storage.RemovePendingTask task.LinksNum task.URL
    some ({ q with storage := storage }, (storage.Save w).1)

/-- Method `Enqueue`. `w` is what the write of `Save` does and `sel` how the `select`
ends, both decided outside the queue. Returns the queue, the snapshot file and the error. -/
def Enqueue (q : Queue) (disk : Snapshot) (linksNum : Int) (url : GoString)
    (w : WriteOutcome) (sel : SendOutcome) : Queue × Snapshot × Except String Unit :=
  if q.isShuttingDown then (q, disk, .error "очередь останавливается")
  else
    let storage := q.storage.AddPendingTask { LinksNum := linksNum, URL := url, Status := "pending" }
    let q := { q with storage := storage }
    match storage.Save w with
    | (disk, .error e) => (q, disk, .error ("не удалось сохранить состояние: " ++ e))
    | (disk, .ok ()) =>
      match sel with
      | .sent => ({ q with taskChan := q.taskChan ++ [⟨linksNum, url⟩] }, disk, .ok ())
      | .timedOut => (q, disk, .ok ())

/-- Method `Shutdown`: sets the flag (and closes the channel), then waits for the workers;
on a timeout it cancels the context and returns an error. -/
def Shutdown (q : Queue) (wait : WaitOutcome) : Queue × Except String Unit :=
  let q := { q with isShuttingDown := true }
  match wait with
  | .done => (q, .ok ())
  | .timeout =>
    ({ q with cancelled := true },
      .error "таймаут остановки: некоторые задачи могут быть не завершены")

/-- Method `GetPendingCount`: the length of the pending list. -/
def GetPendingCount (q : Queue) : Nat := q.storage.GetPendingTasks.length

end Queue

/-! ## Sequences of queue steps -/

/-- A step of the queue in the sequential reading: an `Enqueue` call whose `Save`
writes the file, or one receiving iteration of a worker. -/
inductive QEvent where
  | enqueue (linksNum : Int) (url : GoString) (sel : SendOutcome)
  | work (checkLink : GoString → LinkStatus) (w : WriteOutcome)

/-- Runs the steps in order from a queue and a snapshot file. There is no run when an
`Enqueue` is rejected or when a worker has nothing to receive. -/
def runQueue : Queue × Snapshot → List QEvent → Option (Queue × Snapshot)
  | c, [] => some c
  | (q, disk), .enqueue linksNum url sel :: rest =>
    match q.Enqueue disk linksNum url .written sel with
    | (q1, disk1, .ok ()) => runQueue (q1, disk1) rest
    | (_, _, .error _) => none
  | (q, _), .work checkLink w :: rest =>
    match q.workerStep checkLink w with
    | some c1 => runQueue c1 rest
    | none => none

/-- The number of accepted `Enqueue` calls in a sequence of steps. -/
def countEnqueued : List QEvent → Nat
  | [] => 0
  | .enqueue _ _ _ :: rest => countEnqueued rest + 1
  | .work _ _ :: rest => countEnqueued rest

/-- The number of tasks processed to completion in a sequence of steps. -/
def countCompleted : List QEvent → Nat
  | [] => 0
  | .enqueue _ _ _ :: rest => countCompleted rest
  | .work _ _ :: rest => countCompleted rest + 1

/-! ## Vocabulary of the properties -/

/-- The store has a batch map (it is not nil). -/
def HasMap (s : Storage) : Prop := s.state.LinksSets ≠ none

/-- The number a list of digits, least significant first, stands for. -/
def digitsValue : List Nat → Nat
  | [] => 0
  | d :: rest => d + 10 * digitsValue rest

/-- A Unicode scalar value: a code point that is not a surrogate. -/
def IsScalar (c : Nat) : Prop := c < 0xD800 ∨ (0xE000 ≤ c ∧ c < 0x110000)

/-- The Go string is valid UTF-8: it is the encoding of a text. -/
def ValidUTF8 (g : GoString) : Prop := ∃ t : String, g = GoString.ofText t

/-- Every URL and status of the map is valid UTF-8. -/
def ValidLinks (links : Option (GoMap GoString LinkStatus)) : Prop :=
  ∀ e ∈ nilEntries links, ValidUTF8 e.1 ∧ ValidUTF8 e.2

/-- Every string of the state (URLs, statuses, phases) is valid UTF-8. -/
def ValidStrings (st : State) : Prop :=
  (∀ e ∈ nilEntries st.LinksSets, ValidLinks e.2.Links) ∧
  ∀ t ∈ sliceElems st.PendingTasks, ValidUTF8 t.URL ∧ ValidUTF8 t.Status

/-- Every integer of the state (counter, ids, batch numbers) is a value of Go `int`. -/
def IntsInRange (st : State) : Prop :=
  InInt64 st.NextLinksNum ∧
  (∀ e ∈ nilEntries st.LinksSets, InInt64 e.1 ∧ InInt64 e.2.LinksNum) ∧
  ∀ t ∈ sliceElems st.PendingTasks, InInt64 t.LinksNum

/-- Two URL maps hold the same URL-to-status bindings (a nil map holds none). -/
def SameLinks (a b : Option (GoMap GoString LinkStatus)) : Prop :=
  ∀ url : GoString, nilGet a url = nilGet b url

/-- Two batches have the same `LinksNum` and the same URL-to-status bindings. -/
def SameSet (a b : LinksSet) : Prop := a.LinksNum = b.LinksNum ∧ SameLinks a.Links b.Links

/-- Two batch maps have the same ids, each bound to the same batch. -/
def SameBatches (a b : Option (GoMap Int LinksSet)) : Prop :=
  ∀ id : Int,
    (nilGet a id = none ∧ nilGet b id = none) ∨
    (∃ x y, nilGet a id = some x ∧ nilGet b id = some y ∧ SameSet x y)

/-- What decoding the encoding of a batch gives. -/
def reloadSet (v : LinksSet) : LinksSet :=
  match decodeLinksSet (marshalLinksSet v) with
  | .ok v' => v'
  | .error _ => v

/-- The status the store holds for a URL of a batch, if any. -/
def storedStatus (s : Storage) (linksNum : Int) (url : GoString) : Option LinkStatus :=
  match nilGet s.state.LinksSets linksNum with
  | none => none
  | some set => nilGet set.Links url

/-- The number of pending markers of a pair in a list. -/
def markerCount (linksNum : Int) (url : GoString) (l : List PendingTask) : Nat :=
  l.countP (fun t => decide (t.LinksNum = linksNum) && decide (t.URL = url))

/-- The number of tasks of a pair in the buffer of the channel. -/
def taskCount (linksNum : Int) (url : GoString) (l : List Task) : Nat :=
  l.countP (fun t => decide (t.LinksNum = linksNum) && decide (t.URL = url))

/-- Every task in the buffer has its own pending marker in the store. -/
def Covered (q : Queue) : Prop :=
  ∀ (linksNum : Int) (url : GoString),
    taskCount linksNum url q.taskChan ≤ markerCount linksNum url q.storage.GetPendingTasks

/-- The state `Load` installs from a decoded state: nil map and nil slice made empty. -/
def normalised (st : State) : State :=
  { LinksSets := some (st.LinksSets.getD GoMap.empty)
    NextLinksNum := st.NextLinksNum
    PendingTasks := some (sliceElems st.PendingTasks) }

/-! ## Concrete stores and queues -/

/-- Two calls on the fresh store: one batch, one pending marker. -/
def exampleOps : List Op :=
  [.addLinksSet (some ⟨[("a.com", StatusAvailable)]⟩), .addPendingTask ⟨1, "a.com", "pending"⟩]

/-- The store after `exampleOps`. -/
def exampleStore : Storage :=
  ⟨{ LinksSets := some ⟨[(1, ⟨1, some ⟨[("a.com", StatusAvailable)]⟩⟩)]⟩
     NextLinksNum := 2
     PendingTasks := some [⟨1, "a.com", "pending"⟩] }⟩

/-- A Go string of one byte, 0xFF: not valid UTF-8. -/
def invalidUrl : GoString := ⟨[0xFF]⟩

/-- One call on the fresh store: a batch whose only URL is `invalidUrl`. -/
def invalidUrlOps : List Op := [.addLinksSet (some ⟨[(invalidUrl, StatusAvailable)]⟩)]

/-- The store after `invalidUrlOps`. -/
def invalidUrlStore : Storage :=
  ⟨{ LinksSets := some ⟨[(1, ⟨1, some ⟨[(invalidUrl, StatusAvailable)]⟩⟩)]⟩
     NextLinksNum := 2
     PendingTasks := some [] }⟩

/-- The store `Load` builds from the snapshot of `invalidUrlStore`: the URL is now the
encoding of U+FFFD. -/
def invalidUrlReloaded : Storage :=
  ⟨{ LinksSets := some ⟨[(1, ⟨1, some ⟨[(⟨[0xEF, 0xBF, 0xBD]⟩, StatusAvailable)]⟩⟩)]⟩
     NextLinksNum := 2
     PendingTasks := some [] }⟩

/-- A queue on the fresh store, with one worker. -/
def freshQueue : Queue := Queue.NewQueue ⟨Storage.initialState⟩ 1

/-- The fresh queue after `Shutdown`. -/
def stoppedQueue : Queue := (freshQueue.Shutdown .done).1

/-- A probe that finds every URL available. -/
def alwaysAvailable : GoString → LinkStatus := fun _ => StatusAvailable

/-- Two tasks are enqueued and sent, then a worker completes both. -/
def twoTasksCompleted : List QEvent :=
  [.enqueue 1 "a.com" .sent, .enqueue 1 "b.com" .sent,
   .work alwaysAvailable .written, .work alwaysAvailable .written]

/-! # Properties -/

/-! ## Go maps -/

namespace GoMap

variable {κ ν : Type} [DecidableEq κ]

theorem lookupIn_eraseIn_ne (l : List (κ × ν)) (k k' : κ) (h : k' ≠ k) :
    lookupIn (eraseIn l k) k' = lookupIn l k' := by
  induction l with
  | nil => rfl
  | cons e rest ih =>
    obtain ⟨a, b⟩ := e
    by_cases hak : a = k
    · subst hak
      have hne : ¬ a = k' := fun h' => h h'.symm
      simp [eraseIn, lookupIn, hne, ih]
    · by_cases hak' : a = k'
      · subst hak'
        simp [eraseIn, lookupIn, hak]
      · simp [eraseIn, lookupIn, hak, hak', ih]

theorem get_empty (k : κ) : (empty : GoMap κ ν).get k = none := rfl

theorem get_set_self (m : GoMap κ ν) (k : κ) (v : ν) : (m.set k v).get k = some v := by
  simp [get, set, lookupIn]

theorem get_set_ne (m : GoMap κ ν) (k k' : κ) (v : ν) (h : k' ≠ k) :
    (m.set k v).get k' = m.get k' := by
  have hne : ¬ k = k' := fun h' => h h'.symm
  simp [get, set, lookupIn, hne, lookupIn_eraseIn_ne _ _ _ h]

theorem get_set (m : GoMap κ ν) (k k' : κ) (v : ν) :
    (m.set k v).get k' = if k' = k then some v else m.get k' := by
  by_cases h : k' = k
  · subst h; simp [get_set_self]
  · simp [h, get_set_ne _ _ _ _ h]

theorem lookupIn_isSome (l : List (κ × ν)) (k : κ) :
    (lookupIn l k).isSome = true ↔ k ∈ l.map Prod.fst := by
  induction l with
  | nil => simp [lookupIn]
  | cons e rest ih =>
    obtain ⟨a, b⟩ := e
    by_cases h : a = k
    · simp [lookupIn, h]
    · have h' : ¬ k = a := fun e => h e.symm
      simp [lookupIn, h, h', ih]

theorem lookupIn_mem (l : List (κ × ν)) (k : κ) (v : ν) (h : lookupIn l k = some v) :
    (k, v) ∈ l := by
  induction l with
  | nil => simp [lookupIn] at h
  | cons e rest ih =>
    obtain ⟨a, b⟩ := e
    by_cases hak : a = k
    · subst hak
      simp only [lookupIn, if_true, Option.some.injEq] at h
      subst h
      simp
    · simp only [lookupIn, if_neg hak] at h
      exact List.mem_cons_of_mem _ (ih h)

theorem get_mem (m : GoMap κ ν) (k : κ) (v : ν) (h : m.get k = some v) : (k, v) ∈ m.entries :=
  lookupIn_mem m.entries k v h

theorem mem_keys (m : GoMap κ ν) (k : κ) : k ∈ m.keys ↔ (m.get k).isSome = true := by
  simp [keys, get, lookupIn_isSome]

/-- A copying loop over the bindings of a map yields a map with the same keys, each
bound to the copy of its value. -/
theorem get_foldr_set {ν' : Type} (f : ν → ν') (l : List (κ × ν)) (k : κ) :
    (l.foldr (fun e acc => acc.set e.1 (f e.2)) (empty : GoMap κ ν')).get k =
      (lookupIn l k).map f := by
  induction l with
  | nil => rfl
  | cons e rest ih =>
    obtain ⟨a, b⟩ := e
    simp only [List.foldr_cons, get_set, lookupIn]
    by_cases h : a = k
    · simp [h]
    · have h' : ¬ k = a := fun e => h e.symm
      simp [h, h', ih]

end GoMap

theorem get_copyLinks (links : Option (GoMap GoString LinkStatus)) (url : GoString) :
    (copyLinks links).get url = nilGet links url := by
  cases links with
  | none => rfl
  | some g =>
    have := GoMap.get_foldr_set (fun v : LinkStatus => v) g.entries url
    simpa [copyLinks, nilEntries, nilGet, GoMap.get] using this

/-! ## Reading batches -/

/-- The loop of `GetLinksSets`, from any partial result. -/
theorem getLinksSets_loop (stored : Option (GoMap Int LinksSet)) (linksNums : List Int) :
    ∀ (acc : GoMap Int LinksSet) (id : Int),
      (linksNums.foldl
        (fun result num =>
          match nilGet stored num with
          | some set => result.set num (Storage.copySet set)
          | none => result) acc).get id =
      if id ∈ linksNums ∧ (nilGet stored id).isSome = true
      then (nilGet stored id).map Storage.copySet else acc.get id := by
  induction linksNums with
  | nil => intro acc id; simp
  | cons num rest ih =>
    intro acc id
    simp only [List.foldl_cons, ih, List.mem_cons]
    by_cases hr : id ∈ rest ∧ (nilGet stored id).isSome = true
    · have : (id = num ∨ id ∈ rest) ∧ (nilGet stored id).isSome = true := ⟨Or.inr hr.1, hr.2⟩
      simp [hr, this]
    · rw [if_neg hr]
      by_cases hid : id = num
      · subst hid
        cases hg : nilGet stored id with
        | none => simp
        | some v => simp [GoMap.get_set_self]
      · have hne : ¬ (id ∈ rest ∧ (nilGet stored id).isSome = true) := hr
        have : ¬ ((id = num ∨ id ∈ rest) ∧ (nilGet stored id).isSome = true) := by
          rintro ⟨h1 | h1, h2⟩
          · exact hid h1
          · exact hne ⟨h1, h2⟩
        rw [if_neg this]
        cases hg : nilGet stored num with
        | none => rfl
        | some v => simp [GoMap.get_set_ne _ _ _ _ hid]

theorem getLinksSets_get (s : Storage) (linksNums : List Int) (id : Int) :
    (s.GetLinksSets linksNums).get id =
      if id ∈ linksNums then (nilGet s.state.LinksSets id).map Storage.copySet else none := by
  unfold Storage.GetLinksSets
  rw [getLinksSets_loop]
  by_cases h : id ∈ linksNums
  · cases hg : nilGet s.state.LinksSets id <;> simp [h, GoMap.get_empty]
  · simp [h, GoMap.get_empty]

/-- C2. The result of `GetLinksSets` has as keys exactly the requested ids that are keys
of the stored batch map; each is bound to a batch with the stored `LinksNum` and the
stored URL-to-status bindings; when no requested id is stored the result is the empty
map (the function has no error result); the call leaves the store as it was. -/
theorem getLinksSets_returns_existing_subset (s : Storage) (linksNums : List Int) :
    (∀ id : Int, id ∈ (s.GetLinksSets linksNums).keys ↔
      id ∈ linksNums ∧ (nilGet s.state.LinksSets id).isSome = true) ∧
    (∀ (id : Int) (v : LinksSet), (s.GetLinksSets linksNums).get id = some v →
      ∃ stored, nilGet s.state.LinksSets id = some stored ∧ v.LinksNum = stored.LinksNum ∧
        ∀ url : GoString, nilGet v.Links url = nilGet stored.Links url) ∧
    ((∀ id ∈ linksNums, nilGet s.state.LinksSets id = none) →
      s.GetLinksSets linksNums = GoMap.empty) ∧
    (Op.getLinksSets linksNums).apply s = some (s, none) := by
  refine ⟨?_, ?_, ?_, rfl⟩
  · intro id
    rw [GoMap.mem_keys, getLinksSets_get]
    by_cases h : id ∈ linksNums
    · cases hg : nilGet s.state.LinksSets id <;> simp [h]
    · simp [h]
  · intro id v hv
    rw [getLinksSets_get] at hv
    by_cases h : id ∈ linksNums
    · rw [if_pos h] at hv
      cases hg : nilGet s.state.LinksSets id with
      | none => simp [hg] at hv
      | some stored =>
        simp only [hg, Option.map_some', Option.some.injEq] at hv
        subst hv
        exact ⟨stored, rfl, rfl, fun url => by simp [Storage.copySet, nilGet, get_copyLinks]⟩
    · simp [h] at hv
  · intro hnone
    unfold Storage.GetLinksSets
    have : ∀ acc : GoMap Int LinksSet,
        (∀ id ∈ linksNums, nilGet s.state.LinksSets id = none) →
        linksNums.foldl
          (fun result num =>
            match nilGet s.state.LinksSets num with
            | some set => result.set num (Storage.copySet set)
            | none => result) acc = acc := by
      induction linksNums with
      | nil => intro acc _; rfl
      | cons num rest ih =>
        intro acc hall
        have h1 : nilGet s.state.LinksSets num = none := hall num (by simp)
        simp only [List.foldl_cons, h1]
        exact ih (fun id hid => hnone id (by simp [hid])) acc
          (fun id hid => hall id (by simp [hid]))
    exact this _ hnone

/-! ## Decimal keys -/

theorem digitVal_digitChar : ∀ d : Nat, d < 10 → digitVal (digitChar d) = some d := by
  decide

theorem digitChar_ne_sign : ∀ d : Nat, d < 10 → digitChar d ≠ '-' ∧ digitChar d ≠ '+' := by
  decide

theorem digitsLE_lt (fuel : Nat) : ∀ n : Nat, ∀ d ∈ digitsLE fuel n, d < 10 := by
  induction fuel with
  | zero => intro n d hd; simp [digitsLE] at hd
  | succ fuel ih =>
    intro n d hd
    unfold digitsLE at hd
    split at hd
    · simp at hd; omega
    · rcases List.mem_cons.mp hd with h | h
      · omega
      · exact ih _ d h

theorem digitsValue_digitsLE (fuel : Nat) :
    ∀ n : Nat, n < fuel → digitsValue (digitsLE fuel n) = n := by
  induction fuel with
  | zero => intro n h; omega
  | succ fuel ih =>
    intro n h
    unfold digitsLE
    split
    · simp [digitsValue]
    · simp only [digitsValue]
      rw [ih (n / 10) (by omega)]
      omega

theorem digitsLE_ne_nil (fuel n : Nat) : digitsLE (fuel + 1) n ≠ [] := by
  unfold digitsLE
  split <;> simp

theorem parseDigits_append (xs ys : List Char) :
    ∀ acc : Nat, parseDigits acc (xs ++ ys) =
      (parseDigits acc xs).bind (fun a => parseDigits a ys) := by
  induction xs with
  | nil => intro acc; rfl
  | cons c rest ih =>
    intro acc
    simp only [List.cons_append, parseDigits]
    cases digitVal c with
    | none => rfl
    | some d => exact ih _

theorem parseDigits_reverse (l : List Nat) (hl : ∀ d ∈ l, d < 10) :
    ∀ acc : Nat, parseDigits acc (l.reverse.map digitChar) =
      some (acc * 10 ^ l.length + digitsValue l) := by
  induction l with
  | nil => intro acc; simp [parseDigits, digitsValue]
  | cons d rest ih =>
    intro acc
    have hd : d < 10 := hl d (by simp)
    have hrest : ∀ x ∈ rest, x < 10 := fun x hx => hl x (by simp [hx])
    simp only [List.reverse_cons, List.map_append, List.map_cons, List.map_nil,
      parseDigits_append, ih hrest, Option.some_bind, parseDigits, digitVal_digitChar d hd,
      digitsValue, List.length_cons]
    congr 1
    ring

theorem parseNat_formatNat (n : Nat) : parseNat (formatNat n) = some n := by
  have hne : formatNat n ≠ [] := by
    simp [formatNat, digitsLE_ne_nil]
  have hval : parseDigits 0 (formatNat n) = some n := by
    unfold formatNat
    rw [parseDigits_reverse _ (digitsLE_lt _ _), digitsValue_digitsLE _ _ (Nat.lt_succ_self n)]
    simp
  cases hf : formatNat n with
  | nil => exact absurd hf hne
  | cons c cs => rw [hf] at hval; simpa [parseNat] using hval

theorem formatNat_head (n : Nat) :
    ∃ c cs, formatNat n = c :: cs ∧ c ≠ '-' ∧ c ≠ '+' := by
  have hne : formatNat n ≠ [] := by
    simp [formatNat, digitsLE_ne_nil]
  cases hf : formatNat n with
  | nil => exact absurd hf hne
  | cons c cs =>
    refine ⟨c, cs, rfl, ?_⟩
    have hmem : c ∈ formatNat n := by simp [hf]
    simp only [formatNat, List.mem_map, List.mem_reverse] at hmem
    obtain ⟨d, hd, rfl⟩ := hmem
    exact digitChar_ne_sign d (digitsLE_lt _ _ d hd)

theorem parseSigned_formatInt (i : Int) : parseSigned (formatInt i) = some i := by
  cases i with
  | ofNat n =>
    obtain ⟨c, cs, hf, h1, h2⟩ := formatNat_head n
    have hp := parseNat_formatNat n
    rw [hf] at hp
    simp [parseSigned, formatInt, hf, h1, h2, hp]
  | negSucc n =>
    simp [parseSigned, formatInt, parseNat_formatNat, Int.negSucc_eq]

/-- Reading back the decimal form of a map key gives the key. -/
theorem parseInt_formatInt (i : Int) (h : InInt64 i) : parseInt (formatInt i) = some i := by
  simp [parseInt, parseSigned_formatInt, h]

/-! ## UTF-8 -/

theorem encodeRune_lt (c : Nat) (hc : c < 0x110000) : ∀ b ∈ encodeRune c, b < 256 := by
  intro b hb
  unfold encodeRune at hb
  split at hb
  · simp at hb; omega
  · split at hb
    · simp at hb; omega
    · split at hb
      · simp at hb; omega
      · simp at hb; omega

theorem encodeRunes_lt (cs : List Nat) (h : ∀ c ∈ cs, c < 0x110000) :
    ∀ b ∈ encodeRunes cs, b < 256 := by
  induction cs with
  | nil => intro b hb; simp [encodeRunes] at hb
  | cons c rest ih =>
    intro b hb
    simp only [encodeRunes, List.mem_append] at hb
    rcases hb with hb | hb
    · exact encodeRune_lt c (h c (by simp)) b hb
    · exact ih (fun x hx => h x (by simp [hx])) b hb

theorem encodeRune_ne_nil (c : Nat) : encodeRune c ≠ [] := by
  unfold encodeRune
  split
  · simp
  · split
    · simp
    · split <;> simp

set_option maxRecDepth 8000 in
/-- Decoding the encoding of a scalar value, whatever follows, gives the value and the
width of its encoding. -/
theorem decodeRune_encodeRune (c : Nat) (hc : IsScalar c) (rest : List Nat) :
    decodeRune (encodeRune c ++ rest) = (c, (encodeRune c).length) := by
  unfold IsScalar at hc
  unfold encodeRune
  split
  · simp [decodeRune, *]
  · split
    · have h1 : ¬ (0xC0 + c / 64 < 0x80) := by omega
      have h2 : 0xC2 ≤ 0xC0 + c / 64 ∧ 0xC0 + c / 64 ≤ 0xDF := by omega
      have h3 : isCont (0x80 + c % 64) = true := by simp [isCont]; omega
      simp only [List.cons_append, List.nil_append, decodeRune, h1, h2, h3, if_true, if_false,
        and_self, List.length_cons, List.length_nil]
      congr 1
      omega
    · split
      · have h1 : ¬ (0xE0 + c / 4096 < 0x80) := by omega
        have h2 : ¬ (0xC2 ≤ 0xE0 + c / 4096 ∧ 0xE0 + c / 4096 ≤ 0xDF) := by omega
        have h3 : 0xE0 ≤ 0xE0 + c / 4096 ∧ 0xE0 + c / 4096 ≤ 0xEF := by omega
        have h4 : isCont (0x80 + c % 64) = true := by simp [isCont]; omega
        have h5 : (if 0xE0 + c / 4096 = 0xE0 then 0xA0 else 0x80) ≤ 0x80 + c / 64 % 64 ∧
            0x80 + c / 64 % 64 ≤ (if 0xE0 + c / 4096 = 0xED then 0x9F else 0xBF) ∧
            isCont (0x80 + c % 64) = true := by
          refine ⟨?_, ?_, h4⟩
          · split <;> omega
          · split <;> omega
        simp only [List.cons_append, List.nil_append, decodeRune, h1, h2, h3, h5, if_true,
          if_false, and_self, List.length_cons, List.length_nil]
        congr 1
        omega
      · have h1 : ¬ (0xF0 + c / 262144 < 0x80) := by omega
        have h2 : ¬ (0xC2 ≤ 0xF0 + c / 262144 ∧ 0xF0 + c / 262144 ≤ 0xDF) := by omega
        have h3 : ¬ (0xE0 ≤ 0xF0 + c / 262144 ∧ 0xF0 + c / 262144 ≤ 0xEF) := by omega
        have h3' : 0xF0 ≤ 0xF0 + c / 262144 ∧ 0xF0 + c / 262144 ≤ 0xF4 := by omega
        have h5 : (if 0xF0 + c / 262144 = 0xF0 then 0x90 else 0x80) ≤ 0x80 + c / 4096 % 64 ∧
            0x80 + c / 4096 % 64 ≤ (if 0xF0 + c / 262144 = 0xF4 then 0x8F else 0xBF) ∧
            isCont (0x80 + c / 64 % 64) = true ∧ isCont (0x80 + c % 64) = true := by
          refine ⟨?_, ?_, ?_, ?_⟩
          · split <;> omega
          · split <;> omega
          · simp [isCont]; omega
          · simp [isCont]; omega
        simp only [List.cons_append, List.nil_append, decodeRune, h1, h2, h3, h3', h5, if_true,
          if_false, and_self, List.length_cons, List.length_nil]
        congr 1
        omega

theorem decodeRunes_encodeRunes (cs : List Nat) (h : ∀ c ∈ cs, IsScalar c) :
    ∀ fuel : Nat, (encodeRunes cs).length ≤ fuel → decodeRunes fuel (encodeRunes cs) = cs := by
  induction cs with
  | nil => intro fuel _; cases fuel <;> rfl
  | cons c rest ih =>
    intro fuel hfuel
    have hc : IsScalar c := h c (by simp)
    have hdec := decodeRune_encodeRune c hc (encodeRunes rest)
    have hne := encodeRune_ne_nil c
    simp only [encodeRunes, List.length_append] at hfuel
    cases henc : encodeRune c with
    | nil => exact absurd henc hne
    | cons b tail =>
      rw [henc] at hdec hfuel
      cases fuel with
      | zero => simp at hfuel
      | succ fuel =>
        simp only [encodeRunes, henc, List.cons_append, decodeRunes]
        rw [show b :: (tail ++ encodeRunes rest) = (b :: tail) ++ encodeRunes rest from rfl, hdec]
        simp only [List.drop_left]
        rw [ih (fun x hx => h x (by simp [hx])) fuel (by
          simp only [List.length_cons] at hfuel; omega)]

theorem decodeRune_width (b : Nat) (rest : List Nat) :
    1 ≤ (decodeRune (b :: rest)).2 := by
  simp only [decodeRune]
  repeat' split
  all_goals simp

/-- The fuel `toText` gives, the number of bytes, is enough: more fuel gives the same
code points. -/
theorem decodeRunes_fuel (n : Nat) :
    ∀ l : List Nat, l.length ≤ n → decodeRunes n l = decodeRunes l.length l := by
  induction n using Nat.strong_induction_on with
  | _ n ih =>
    intro l hl
    cases l with
    | nil => cases n <;> rfl
    | cons b rest =>
      cases n with
      | zero => simp at hl
      | succ n =>
        have hw := decodeRune_width b rest
        have hlen : ((b :: rest).drop (decodeRune (b :: rest)).2).length ≤ rest.length := by
          simp only [List.length_drop, List.length_cons]
          omega
        simp only [List.length_cons] at hl
        simp only [decodeRunes, List.length_cons]
        rw [ih n (Nat.lt_succ_self n) _ (by omega)]
        by_cases hrn : rest.length = n
        · subst hrn
          rw [ih rest.length (Nat.lt_succ_self _) _ hlen]
        · rw [ih rest.length (by omega) _ hlen]

theorem char_isScalar (c : Char) : IsScalar c.toNat := by
  have h := c.valid
  simp only [UInt32.isValidChar, Nat.isValidChar] at h
  unfold IsScalar Char.toNat
  omega

/-- The text written for the encoding of a text is that text. -/
theorem toText_ofText (t : String) : (GoString.ofText t).toText = t := by
  have hscalar : ∀ c ∈ t.data.map Char.toNat, IsScalar c := by
    intro c hc
    obtain ⟨ch, _, rfl⟩ := List.mem_map.mp hc
    exact char_isScalar ch
  have hlt : ∀ b ∈ encodeRunes (t.data.map Char.toNat), b < 256 := by
    apply encodeRunes_lt
    intro c hc
    rcases hscalar c hc with h | h
    · omega
    · exact h.2
  have hval : ((encodeRunes (t.data.map Char.toNat)).map toByte).map Fin.val =
      encodeRunes (t.data.map Char.toNat) := by
    rw [List.map_map]
    conv => rhs; rw [← List.map_id (encodeRunes (t.data.map Char.toNat))]
    apply List.map_congr_left
    intro b hb
    simp only [Function.comp, toByte, id]
    exact Nat.mod_eq_of_lt (hlt b hb)
  have hchars : (t.data.map Char.toNat).map Char.ofNat = t.data := by
    rw [List.map_map]
    conv => rhs; rw [← List.map_id t.data]
    apply List.map_congr_left
    intro c _
    simp [Function.comp, Char.ofNat_toNat]
  simp only [GoString.toText, GoString.ofText, hval, List.length_map]
  rw [decodeRunes_encodeRunes _ hscalar _ (Nat.le_refl _), hchars]

/-- A valid UTF-8 string is the encoding of the text written for it. -/
theorem ofText_toText (g : GoString) (h : ValidUTF8 g) : GoString.ofText g.toText = g := by
  obtain ⟨t, rfl⟩ := h
  rw [toText_ofText]

/-! ## The snapshot round trip -/

theorem mem_sortMembers {κ α : Type} (le : κ → κ → Bool) (l : List (κ × α)) (e : κ × α) :
    e ∈ sortMembers le l ↔ e ∈ l :=
  (List.perm_insertionSort _ l).mem_iff

/-- Decoding the members of an object whose names all read as keys and whose values
all decode, the value of a key depending on the key only: every key read is bound to
its value and the other keys are as before. -/
theorem decodeMembers_get {κ ν δ : Type} [DecidableEq κ] (key : String → Option κ)
    (elem : δ → Except String ν) (val : κ → ν) (members : List (String × δ))
    (h : ∀ e ∈ members, ∃ k, key e.1 = some k ∧ elem e.2 = .ok (val k)) :
    ∀ m : GoMap κ ν, ∃ m', decodeMembers key elem m members = .ok m' ∧
      ∀ id : κ, m'.get id =
        if (∃ e ∈ members, key e.1 = some id) then some (val id) else m.get id := by
  induction members with
  | nil => intro m; exact ⟨m, rfl, by simp⟩
  | cons e rest ih =>
    intro m
    obtain ⟨name, value⟩ := e
    obtain ⟨k, hk, hv⟩ := h (name, value) (by simp)
    obtain ⟨m', hm', hget⟩ := ih (fun e he => h e (by simp [he])) (m.set k (val k))
    refine ⟨m', by simp only [decodeMembers, hv, hk, hm'], ?_⟩
    intro id
    rw [hget id]
    by_cases hr : ∃ e ∈ rest, key e.1 = some id
    · have : ∃ e ∈ (name, value) :: rest, key e.1 = some id := by
        obtain ⟨e, he, hid⟩ := hr
        exact ⟨e, by simp [he], hid⟩
      rw [if_pos hr, if_pos this]
    · rw [if_neg hr, GoMap.get_set]
      by_cases hid : id = k
      · subst hid
        have : ∃ e ∈ (name, value) :: rest, key e.1 = some id := ⟨(name, value), by simp, hk⟩
        rw [if_pos rfl, if_pos this]
      · have : ¬ ∃ e ∈ (name, value) :: rest, key e.1 = some id := by
          rintro ⟨e, he, hkey⟩
          rcases List.mem_cons.mp he with rfl | he'
          · rw [hk] at hkey
            exact hid (Option.some.inj hkey).symm
          · exact hr ⟨e, he', hkey⟩
        rw [if_neg hid, if_neg this]

/-- Decoding the encoding of a URL map whose strings are valid UTF-8 gives a map with
the same bindings. -/
theorem decodeMap_marshalLinks (links : Option (GoMap GoString LinkStatus))
    (hvalid : ValidLinks links) :
    ∃ links', decodeMap (fun name => some (GoString.ofText name))
        (fun value : String => Except.ok (GoString.ofText value)) (marshalLinks links) =
        .ok links' ∧ SameLinks links' links := by
  cases links with
  | none => exact ⟨none, rfl, fun _ => rfl⟩
  | some g =>
    have hentry : ∀ k v, g.get k = some v → ValidUTF8 k ∧ ValidUTF8 v := fun k v hg =>
      hvalid (k, v) (GoMap.get_mem g k v hg)
    have hkey : ∀ k ∈ g.keys, ∃ v, g.get k = some v := by
      intro k hk
      have := (GoMap.mem_keys g k).mp hk
      exact Option.isSome_iff_exists.mp this
    have hmem : ∀ e : String × String,
        e ∈ (sortMembers goStringLe (g.keys.map (fun k => (k, (g.get k).getD ⟨[]⟩)))).map
          (fun e => (e.1.toText, e.2.toText)) ↔
        ∃ k ∈ g.keys, e = (k.toText, ((g.get k).getD ⟨[]⟩).toText) := by
      intro e
      simp only [List.mem_map, mem_sortMembers]
      constructor
      · rintro ⟨p, ⟨k, hk, rfl⟩, rfl⟩
        exact ⟨k, hk, rfl⟩
      · rintro ⟨k, hk, rfl⟩
        exact ⟨_, ⟨k, hk, rfl⟩, rfl⟩
    obtain ⟨m', hm', hget⟩ := decodeMembers_get (fun name => some (GoString.ofText name))
      (fun value : String => Except.ok (GoString.ofText value))
      (fun k => (g.get k).getD ⟨[]⟩)
      ((sortMembers goStringLe (g.keys.map (fun k => (k, (g.get k).getD ⟨[]⟩)))).map
        (fun e => (e.1.toText, e.2.toText)))
      (by
        intro e he
        obtain ⟨k, hk, rfl⟩ := (hmem e).mp he
        obtain ⟨v, hv⟩ := hkey k hk
        obtain ⟨hvk, hvv⟩ := hentry k v hv
        refine ⟨k, by simp [ofText_toText k hvk], ?_⟩
        simp [hv, ofText_toText v hvv])
      GoMap.empty
    refine ⟨some m', by simp [marshalLinks, decodeMap, hm'], ?_⟩
    intro url
    simp only [nilGet, hget url, GoMap.get_empty]
    have hiff : (∃ e ∈ (sortMembers goStringLe
          (g.keys.map (fun k => (k, (g.get k).getD ⟨[]⟩)))).map
          (fun e => (e.1.toText, e.2.toText)),
        some (GoString.ofText e.1) = some url) ↔ (g.get url).isSome = true := by
      rw [← GoMap.mem_keys]
      constructor
      · rintro ⟨e, he, hk⟩
        obtain ⟨k, hkm, rfl⟩ := (hmem e).mp he
        obtain ⟨v, hv⟩ := hkey k hkm
        simp only [Option.some.injEq, ofText_toText k (hentry k v hv).1] at hk
        exact hk ▸ hkm
      · intro hk
        obtain ⟨v, hv⟩ := hkey url hk
        exact ⟨_, (hmem _).mpr ⟨url, hk, rfl⟩, by simp [ofText_toText url (hentry url v hv).1]⟩
    cases hg : g.get url with
    | none =>
      have hno : ¬ (g.get url).isSome = true := by simp [hg]
      rw [if_neg (fun h => hno (hiff.mp h))]
    | some v =>
      have hyes : (g.get url).isSome = true := by simp [hg]
      rw [if_pos (hiff.mpr hyes)]
      rfl

/-- Decoding the encoding of a batch whose number is in range and whose strings are
valid UTF-8 gives a batch with the same number and bindings. -/
theorem decode_marshalLinksSet (v : LinksSet) (hn : InInt64 v.LinksNum)
    (hvalid : ValidLinks v.Links) :
    decodeLinksSet (marshalLinksSet v) = .ok (reloadSet v) ∧ SameSet (reloadSet v) v := by
  obtain ⟨links', hl, hsame⟩ := decodeMap_marshalLinks v.Links hvalid
  have hdec : decodeLinksSet (marshalLinksSet v) = .ok ⟨v.LinksNum, links'⟩ := by
    simp [decodeLinksSet, marshalLinksSet, decodeInt, hn, hl]
  have hre : reloadSet v = ⟨v.LinksNum, links'⟩ := by simp [reloadSet, hdec]
  rw [hre]
  exact ⟨hdec, rfl, hsame⟩

/-- Decoding the encoding of a batch map whose integers are in range and whose strings
are valid UTF-8 gives a map with the same ids and batches. -/
theorem decodeMap_marshalLinksSets (sets : Option (GoMap Int LinksSet))
    (hgood : ∀ e ∈ nilEntries sets, InInt64 e.1 ∧ InInt64 e.2.LinksNum ∧ ValidLinks e.2.Links) :
    ∃ sets', decodeMap parseInt decodeLinksSet (marshalLinksSets sets) = .ok sets' ∧
      (sets = none ↔ sets' = none) ∧ SameBatches sets' sets := by
  cases sets with
  | none => exact ⟨none, rfl, by simp, fun _ => Or.inl ⟨rfl, rfl⟩⟩
  | some g =>
    have hentry : ∀ k v, g.get k = some v →
        InInt64 k ∧ InInt64 v.LinksNum ∧ ValidLinks v.Links := fun k v hg =>
      hgood (k, v) (GoMap.get_mem g k v hg)
    have hkey : ∀ k ∈ g.keys, ∃ v, g.get k = some v := by
      intro k hk
      have := (GoMap.mem_keys g k).mp hk
      exact Option.isSome_iff_exists.mp this
    obtain ⟨m', hm', hget⟩ := decodeMembers_get parseInt decodeLinksSet
      (fun k => reloadSet ((g.get k).getD ⟨0, none⟩))
      (sortMembers numeralLe (g.keys.map (fun k =>
        (formatInt k, marshalLinksSet ((g.get k).getD ⟨0, none⟩)))))
      (by
        intro e he
        rw [mem_sortMembers, List.mem_map] at he
        obtain ⟨k, hk, rfl⟩ := he
        obtain ⟨v, hv⟩ := hkey k hk
        obtain ⟨h1, h2, h3⟩ := hentry k v hv
        refine ⟨k, parseInt_formatInt k h1, ?_⟩
        simp only [hv, Option.getD_some]
        exact (decode_marshalLinksSet v h2 h3).1)
      GoMap.empty
    refine ⟨some m', by simp [marshalLinksSets, decodeMap, hm'], by simp, ?_⟩
    intro id
    simp only [nilGet, hget id, GoMap.get_empty]
    have hiff : (∃ e ∈ sortMembers numeralLe (g.keys.map (fun k =>
          (formatInt k, marshalLinksSet ((g.get k).getD ⟨0, none⟩)))),
        parseInt e.1 = some id) ↔ (g.get id).isSome = true := by
      rw [← GoMap.mem_keys]
      constructor
      · rintro ⟨e, he, hk⟩
        rw [mem_sortMembers, List.mem_map] at he
        obtain ⟨k, hkm, rfl⟩ := he
        obtain ⟨v, hv⟩ := hkey k hkm
        rw [parseInt_formatInt k (hentry k v hv).1] at hk
        exact (Option.some.inj hk) ▸ hkm
      · intro hk
        obtain ⟨v, hv⟩ := hkey id hk
        exact ⟨(formatInt id, marshalLinksSet ((g.get id).getD ⟨0, none⟩)),
          by rw [mem_sortMembers, List.mem_map]; exact ⟨id, hk, rfl⟩,
          parseInt_formatInt id (hentry id v hv).1⟩
    cases hg : g.get id with
    | none =>
      have hno : ¬ (g.get id).isSome = true := by simp [hg]
      rw [if_neg (fun h => hno (hiff.mp h))]
      exact Or.inl ⟨rfl, rfl⟩
    | some v =>
      have hyes : (g.get id).isSome = true := by simp [hg]
      rw [if_pos (hiff.mpr hyes)]
      obtain ⟨_, h2, h3⟩ := hentry id v hg
      exact Or.inr ⟨_, v, rfl, rfl, by simpa [hg] using (decode_marshalLinksSet v h2 h3).2⟩

theorem decode_marshalPendingTask (t : PendingTask) (hn : InInt64 t.LinksNum)
    (hu : ValidUTF8 t.URL) (hs : ValidUTF8 t.Status) :
    decodePendingTask (marshalPendingTask t) = .ok t := by
  simp [decodePendingTask, marshalPendingTask, decodeInt, hn, ofText_toText _ hu,
    ofText_toText _ hs]

theorem decodeElems_marshalPendingTask (ts : List PendingTask)
    (h : ∀ t ∈ ts, InInt64 t.LinksNum ∧ ValidUTF8 t.URL ∧ ValidUTF8 t.Status) :
    decodeElems decodePendingTask (ts.map marshalPendingTask) = .ok ts := by
  induction ts with
  | nil => rfl
  | cons t rest ih =>
    obtain ⟨h1, h2, h3⟩ := h t (by simp)
    simp [decodeElems, decode_marshalPendingTask t h1 h2 h3,
      ih (fun x hx => h x (by simp [hx]))]

theorem decodeSlice_marshalPendingTasks (ts : Option (List PendingTask))
    (h : ∀ t ∈ sliceElems ts, InInt64 t.LinksNum ∧ ValidUTF8 t.URL ∧ ValidUTF8 t.Status) :
    decodeSlice decodePendingTask (marshalPendingTasks ts) = .ok ts := by
  cases ts with
  | none => rfl
  | some l =>
    have h' : ∀ t ∈ l, InInt64 t.LinksNum ∧ ValidUTF8 t.URL ∧ ValidUTF8 t.Status := by
      simpa [sliceElems] using h
    simp [marshalPendingTasks, decodeSlice, decodeElems_marshalPendingTask l h']

/-- Decoding the encoding of a state whose integers are in range and whose strings are
valid UTF-8 succeeds and gives the same batches, the same counter and the same pending
list. -/
theorem unmarshal_marshalState (st : State) (hr : IntsInRange st) (hv : ValidStrings st) :
    ∃ st', unmarshalState (marshalState st) = .ok st' ∧
      SameBatches st'.LinksSets st.LinksSets ∧
      (st.LinksSets = none ↔ st'.LinksSets = none) ∧
      st'.NextLinksNum = st.NextLinksNum ∧
      st'.PendingTasks = st.PendingTasks := by
  obtain ⟨hnext, hsets, htasks⟩ := hr
  obtain ⟨hvsets, hvtasks⟩ := hv
  obtain ⟨sets', hs, hnone, hsame⟩ := decodeMap_marshalLinksSets st.LinksSets
    (fun e he => ⟨(hsets e he).1, (hsets e he).2, hvsets e he⟩)
  have hp := decodeSlice_marshalPendingTasks st.PendingTasks
    (fun t ht => ⟨htasks t ht, (hvtasks t ht).1, (hvtasks t ht).2⟩)
  refine ⟨⟨sets', st.NextLinksNum, st.PendingTasks⟩, ?_, hsame, hnone, rfl, rfl⟩
  simp [unmarshalState, marshalState, decodeInt, hnext, hs, hp]

theorem load_data_ok (s : Storage) (content : FileData) (st : State)
    (h : jsonUnmarshal content = .ok st) :
    Storage.Load s (.data content) = (⟨normalised st⟩, .ok ()) := by
  obtain ⟨sets, next, pend⟩ := st
  cases sets <;> cases pend <;> simp [Storage.Load, h, normalised, sliceElems]

theorem load_data_error (s : Storage) (content : FileData) (e : String)
    (h : jsonUnmarshal content = .error e) :
    Storage.Load s (.data content) =
      (s, .error ("не удалось распарсить состояние: " ++ e)) := by
  simp [Storage.Load, h]

theorem sameBatches_getD (a b : Option (GoMap Int LinksSet)) (h : SameBatches a b) :
    SameBatches (some (a.getD GoMap.empty)) b := by
  cases a with
  | none =>
    intro id
    rcases h id with ⟨_, h2⟩ | ⟨x, y, h1, _, _⟩
    · exact Or.inl ⟨rfl, h2⟩
    · simp [nilGet] at h1
  | some g => exact h

/-- Saving a store whose integers are in range and whose strings are valid UTF-8 and
loading the file into any store succeeds and gives the same batches, counter and
pending markers; the loaded map is not nil. -/
theorem load_save (s : Storage) (hr : IntsInRange s.state) (hv : ValidStrings s.state) :
    ∃ s', (∀ other : Storage, Storage.Load other (s.Save .written).1 = (s', .ok ())) ∧
      SameBatches s'.state.LinksSets s.state.LinksSets ∧
      s'.state.NextLinksNum = s.state.NextLinksNum ∧
      s'.state.PendingTasks = some (sliceElems s.state.PendingTasks) ∧
      s'.state.LinksSets ≠ none := by
  obtain ⟨st', hu, hsame, _, hnext, hpend⟩ := unmarshal_marshalState s.state hr hv
  refine ⟨⟨normalised st'⟩, fun other => load_data_ok other _ st' hu, ?_, hnext, ?_, ?_⟩
  · exact sameBatches_getD _ _ hsame
  · simp [normalised, hpend]
  · simp [normalised]

/-! ## Loading -/

/-- C7. `Load` on the snapshot file: a missing file and a file of length zero give no
error and leave the state as it was (the initial state with counter 1 in `NewStorage`);
a non-empty file that `json.Unmarshal` does not decode gives an error, leaves the state
as it was, and `NewStorage` returns an error and no store; a file that decodes replaces
the state by the decoded one, a nil batch map or pending list made empty. -/
theorem load_three_cases (s : Storage) :
    (Storage.Load s .missing = (s, .ok ()) ∧ Storage.Load s .zeroBytes = (s, .ok ()) ∧
      Storage.NewStorage .missing = .ok ⟨Storage.initialState⟩ ∧
      Storage.NewStorage .zeroBytes = .ok ⟨Storage.initialState⟩ ∧
      Storage.initialState.NextLinksNum = 1 ∧
      Storage.initialState.LinksSets = some GoMap.empty ∧
      Storage.initialState.PendingTasks = some []) ∧
    (∀ content : FileData,
      (∀ e, jsonUnmarshal content = .error e →
        (∃ e', Storage.Load s (.data content) = (s, .error e')) ∧
        (∃ e', Storage.NewStorage (.data content) = .error e')) ∧
      (∀ st, jsonUnmarshal content = .ok st →
        Storage.Load s (.data content) = (⟨normalised st⟩, .ok ()) ∧
        Storage.NewStorage (.data content) = .ok ⟨normalised st⟩ ∧
        (normalised st).LinksSets = some (st.LinksSets.getD GoMap.empty) ∧
        (normalised st).NextLinksNum = st.NextLinksNum ∧
        (normalised st).PendingTasks = some (st.PendingTasks.getD []))) ∧
    (∀ decoded : Except String State, jsonUnmarshal (.other decoded) = decoded) := by
  refine ⟨⟨rfl, rfl, rfl, rfl, rfl, rfl, rfl⟩, ?_, fun _ => rfl⟩
  intro content
  constructor
  · intro e he
    have hnew : Storage.NewStorage (.data content) = .error
        ("не удалось загрузить состояние: " ++ ("не удалось распарсить состояние: " ++ e)) := by
      simp [Storage.NewStorage, load_data_error _ content e he]
    exact ⟨⟨_, load_data_error s content e he⟩, ⟨_, hnew⟩⟩
  · intro st hst
    exact ⟨load_data_ok s content st hst,
      by simp [Storage.NewStorage, load_data_ok _ content st hst], rfl, rfl, rfl⟩

/-! ## The batch counter -/

theorem updateLinksSetStatus_next (s : Storage) (n : Int) (u : GoString) (st : LinkStatus) :
    (s.UpdateLinksSetStatus n u st).state.NextLinksNum = s.state.NextLinksNum := by
  unfold Storage.UpdateLinksSetStatus
  split
  · rfl
  · split <;> rfl

theorem updateLinksSetStatus_hasMap (s : Storage) (n : Int) (u : GoString) (st : LinkStatus)
    (h : HasMap s) : HasMap (s.UpdateLinksSetStatus n u st) := by
  unfold Storage.UpdateLinksSetStatus
  split
  · exact h
  · split
    · simp [HasMap]
    · exact h

theorem updateLinksSetStatus_pending (s : Storage) (n : Int) (u : GoString) (st : LinkStatus) :
    (s.UpdateLinksSetStatus n u st).state.PendingTasks = s.state.PendingTasks := by
  unfold Storage.UpdateLinksSetStatus
  split
  · rfl
  · split <;> rfl

/-- Every call other than `AddLinksSet` keeps the counter and the presence of the map;
`AddLinksSet` returns the counter and adds one to it. -/
theorem apply_counter (s : Storage) (op : Op) (h : HasMap s) :
    ∃ s1 r, op.apply s = some (s1, r) ∧ HasMap s1 ∧
      ((∃ links, op = .addLinksSet links) →
        r = some s.state.NextLinksNum ∧ s1.state.NextLinksNum = s.state.NextLinksNum + 1) ∧
      ((∀ links, op ≠ .addLinksSet links) →
        r = none ∧ s1.state.NextLinksNum = s.state.NextLinksNum) := by
  cases op with
  | addLinksSet links =>
    cases hm : s.state.LinksSets with
    | none => exact absurd hm h
    | some g =>
      refine ⟨_, _, by simp [Op.apply, Storage.AddLinksSet, hm]; exact ⟨rfl, rfl⟩, ?_, ?_, ?_⟩
      · simp [HasMap]
      · intro _; exact ⟨rfl, rfl⟩
      · intro hne; exact absurd rfl (hne links)
  | addPendingTask task =>
    refine ⟨_, _, rfl, by simpa [HasMap, Storage.AddPendingTask] using h, ?_, fun _ => ⟨rfl, rfl⟩⟩
    intro he; obtain ⟨_, he⟩ := he; cases he
  | removePendingTask n u =>
    refine ⟨_, _, rfl, by simpa [HasMap, Storage.RemovePendingTask] using h, ?_,
      fun _ => ⟨rfl, rfl⟩⟩
    intro he; obtain ⟨_, he⟩ := he; cases he
  | updateLinksSetStatus n u st =>
    refine ⟨_, _, rfl, updateLinksSetStatus_hasMap s n u st h, ?_,
      fun _ => ⟨rfl, updateLinksSetStatus_next s n u st⟩⟩
    intro he; obtain ⟨_, he⟩ := he; cases he
  | getLinksSets ids =>
    refine ⟨_, _, rfl, h, ?_, fun _ => ⟨rfl, rfl⟩⟩
    intro he; obtain ⟨_, he⟩ := he; cases he
  | getState =>
    refine ⟨_, _, rfl, h, ?_, fun _ => ⟨rfl, rfl⟩⟩
    intro he; obtain ⟨_, he⟩ := he; cases he
  | getPendingTasks =>
    refine ⟨_, _, rfl, h, ?_, fun _ => ⟨rfl, rfl⟩⟩
    intro he; obtain ⟨_, he⟩ := he; cases he

/-- From a store with a batch map, a sequence of calls runs to its end and its
`AddLinksSet` calls return the counter, the counter plus one, and so on. -/
theorem runOps_ids (ops : List Op) :
    ∀ s : Storage, HasMap s →
      ∃ s1, runOps s ops = some (s1,
        (List.range (countAdds ops)).map (fun i : Nat => s.state.NextLinksNum + (i : Int))) := by
  induction ops with
  | nil => intro s _; exact ⟨s, rfl⟩
  | cons op rest ih =>
    intro s h
    obtain ⟨s1, r, hap, hs1, hadd, hother⟩ := apply_counter s op h
    obtain ⟨s2, hrun⟩ := ih s1 hs1
    refine ⟨s2, ?_⟩
    by_cases hop : ∃ links, op = .addLinksSet links
    · obtain ⟨hr, hn⟩ := hadd hop
      obtain ⟨links, rfl⟩ := hop
      subst hr
      simp only [runOps, hap, hrun, countAdds, hn]
      simp only [Option.toList, List.singleton_append, List.range_succ_eq_map, List.map_cons,
        List.map_map]
      congr 2
      simp only [List.cons.injEq, Nat.cast_zero, add_zero, List.map_inj_left, Function.comp,
        Nat.succ_eq_add_one, true_and]
      intro i _
      push_cast
      ring
    · have hop' : ∀ links, op ≠ .addLinksSet links := fun links he => hop ⟨links, he⟩
      obtain ⟨hr, hn⟩ := hother hop'
      subst hr
      have hc : countAdds (op :: rest) = countAdds rest := by
        cases op <;> first | rfl | exact absurd rfl (hop' _)
      simp [runOps, hap, hrun, hc, hn]

/-- C1. On a fresh store (no snapshot file, counter 1), whatever calls of the store are
interleaved and whatever maps are passed, the sequence of calls runs to its end and the
n-th call of `AddLinksSet` returns n: the returned ids are 1, 2, ..., one per call, and
no id is returned twice. -/
theorem addLinksSet_nth_call_returns_n (ops : List Op) :
    ∃ s0, Storage.NewStorage .missing = .ok s0 ∧ s0.state.NextLinksNum = 1 ∧
      ∃ s ids, runOps s0 ops = some (s, ids) ∧
        ids.length = countAdds ops ∧
        (∀ n : Nat, n < countAdds ops → ids[n]? = some ((n : Int) + 1)) ∧
        ids.Nodup := by
  refine ⟨⟨Storage.initialState⟩, rfl, rfl, ?_⟩
  obtain ⟨s1, hrun⟩ := runOps_ids ops ⟨Storage.initialState⟩ (by simp [HasMap, Storage.initialState])
  refine ⟨s1, _, hrun, by simp, ?_, ?_⟩
  · intro n hn
    simp [List.getElem?_map, List.getElem?_range hn, Storage.initialState]
    ring
  · apply List.Nodup.map
    · intro a b hab
      simpa using hab
    · exact List.nodup_range _

/-! ## Reachable stores -/

theorem apply_pending_ne_none (s s1 : Storage) (op : Op) (r : Option Int)
    (hap : op.apply s = some (s1, r)) (h : s.state.PendingTasks ≠ none) :
    s1.state.PendingTasks ≠ none := by
  cases op with
  | addLinksSet links =>
    unfold Op.apply Storage.AddLinksSet at hap
    cases hm : s.state.LinksSets with
    | none => simp [hm] at hap
    | some g =>
      simp only [hm, Option.map_some', Option.some.injEq, Prod.mk.injEq] at hap
      rw [← hap.1]
      exact h
  | addPendingTask task =>
    simp only [Op.apply, Option.some.injEq, Prod.mk.injEq] at hap
    rw [← hap.1]
    simp [Storage.AddPendingTask]
  | removePendingTask n u =>
    simp only [Op.apply, Option.some.injEq, Prod.mk.injEq] at hap
    rw [← hap.1]
    cases hp : s.state.PendingTasks with
    | none => exact absurd hp h
    | some l => simp [Storage.RemovePendingTask, hp]
  | updateLinksSetStatus n u st =>
    simp only [Op.apply, Option.some.injEq, Prod.mk.injEq] at hap
    rw [← hap.1, updateLinksSetStatus_pending]
    exact h
  | getLinksSets ids =>
    simp only [Op.apply, Option.some.injEq, Prod.mk.injEq] at hap
    rw [← hap.1]; exact h
  | getState =>
    simp only [Op.apply, Option.some.injEq, Prod.mk.injEq] at hap
    rw [← hap.1]; exact h
  | getPendingTasks =>
    simp only [Op.apply, Option.some.injEq, Prod.mk.injEq] at hap
    rw [← hap.1]; exact h

theorem runOps_pending_ne_none (ops : List Op) :
    ∀ (s s1 : Storage) (ids : List Int), runOps s ops = some (s1, ids) →
      s.state.PendingTasks ≠ none → s1.state.PendingTasks ≠ none := by
  induction ops with
  | nil =>
    intro s s1 ids hrun h
    simp only [runOps, Option.some.injEq, Prod.mk.injEq] at hrun
    rw [← hrun.1]; exact h
  | cons op rest ih =>
    intro s s1 ids hrun h
    unfold runOps at hrun
    cases hap : op.apply s with
    | none => simp [hap] at hrun
    | some p =>
      obtain ⟨s2, r⟩ := p
      simp only [hap] at hrun
      cases hrest : runOps s2 rest with
      | none => simp [hrest] at hrun
      | some p2 =>
        obtain ⟨s3, ids3⟩ := p2
        simp only [hrest, Option.some.injEq, Prod.mk.injEq] at hrun
        rw [← hrun.1]
        exact ih s2 s3 ids3 hrest (apply_pending_ne_none s s2 op r hap h)

theorem exampleStore_valid : ValidStrings exampleStore.state := by
  constructor
  · intro e he
    simp only [exampleStore, nilEntries, List.mem_singleton] at he
    subst he
    intro e' he'
    simp only [nilEntries, List.mem_singleton] at he'
    subst he'
    exact ⟨⟨"a.com", rfl⟩, ⟨"available", rfl⟩⟩
  · intro t ht
    simp only [exampleStore, sliceElems, Option.getD_some, List.mem_singleton] at ht
    subst ht
    exact ⟨⟨"a.com", rfl⟩, ⟨"pending", rfl⟩⟩

theorem exampleStore_inRange : IntsInRange exampleStore.state := by
  unfold IntsInRange
  decide

/-- C6, amended. For a store reached from the fresh store by calls of the store, in
which every URL, status and phase is valid UTF-8 and every integer is a value of Go
`int`: `Save` (when the write goes through) followed by `Load`, into any existing store
or in `NewStorage`, succeeds and gives a state with the same batches (same ids, each
with the same `LinksNum` and URL-to-status bindings), the same counter and the same
list of pending markers, in the same order. -/
theorem save_then_load_round_trip (ops : List Op) (s : Storage) (ids : List Int)
    (hreach : runOps ⟨Storage.initialState⟩ ops = some (s, ids))
    (hvalid : ValidStrings s.state) (hrange : IntsInRange s.state) :
    (s.Save .written).2 = .ok () ∧
    ∃ s', (∀ other : Storage, Storage.Load other (s.Save .written).1 = (s', .ok ())) ∧
      Storage.NewStorage (s.Save .written).1 = .ok s' ∧
      SameBatches s'.state.LinksSets s.state.LinksSets ∧
      s'.state.NextLinksNum = s.state.NextLinksNum ∧
      s'.state.PendingTasks = s.state.PendingTasks := by
  obtain ⟨s', hload, hsame, hnext, hpend, _⟩ := load_save s hrange hvalid
  refine ⟨rfl, s', hload, by simp [Storage.NewStorage, hload], hsame, hnext, ?_⟩
  have hne := runOps_pending_ne_none ops _ s ids hreach (by simp [Storage.initialState])
  cases hp : s.state.PendingTasks with
  | none => exact absurd hp hne
  | some l => simpa [hp, sliceElems] using hpend

theorem save_then_load_round_trip_witness :
    runOps ⟨Storage.initialState⟩ exampleOps = some (exampleStore, [1]) ∧
    ValidStrings exampleStore.state ∧ IntsInRange exampleStore.state ∧
    ((exampleStore.Save .written).2 = .ok () ∧
    ∃ s', (∀ other : Storage, Storage.Load other (exampleStore.Save .written).1 =
          (s', .ok ())) ∧
      Storage.NewStorage (exampleStore.Save .written).1 = .ok s' ∧
      SameBatches s'.state.LinksSets exampleStore.state.LinksSets ∧
      s'.state.NextLinksNum = exampleStore.state.NextLinksNum ∧
      s'.state.PendingTasks = exampleStore.state.PendingTasks) :=
  ⟨by decide, exampleStore_valid, exampleStore_inRange,
    save_then_load_round_trip exampleOps exampleStore [1] (by decide) exampleStore_valid
      exampleStore_inRange⟩

theorem invalidUrlStore_unmarshal :
    jsonUnmarshal (.document (marshalState invalidUrlStore.state)) =
      .ok invalidUrlReloaded.state := by
  rfl

/-- C6 as stated fails: the store reached from the fresh store by one `AddLinksSet`
whose URL is the byte 0xFF holds a status for that URL in batch 1; after `Save` and
`Load` (or `NewStorage`) batch 1 holds no status for it, the URL having been written
as U+FFFD, so the batches are not the same. -/
theorem save_then_load_changes_invalid_url :
    runOps ⟨Storage.initialState⟩ invalidUrlOps = some (invalidUrlStore, [1]) ∧
    IntsInRange invalidUrlStore.state ∧ ¬ ValidUTF8 invalidUrl ∧
    storedStatus invalidUrlStore 1 invalidUrl = some StatusAvailable ∧
    (∀ other : Storage, Storage.Load other (invalidUrlStore.Save .written).1 =
      (invalidUrlReloaded, .ok ())) ∧
    Storage.NewStorage (invalidUrlStore.Save .written).1 = .ok invalidUrlReloaded ∧
    storedStatus invalidUrlReloaded 1 invalidUrl = none ∧
    ¬ SameBatches invalidUrlReloaded.state.LinksSets invalidUrlStore.state.LinksSets := by
  have hload : ∀ other : Storage, Storage.Load other (invalidUrlStore.Save .written).1 =
      (invalidUrlReloaded, .ok ()) := by
    intro other
    have h := load_data_ok other _ _ invalidUrlStore_unmarshal
    simpa [Storage.Save, normalised, invalidUrlReloaded, sliceElems] using h
  have hinvalid : ¬ ValidUTF8 invalidUrl := by
    intro h
    have h' := ofText_toText invalidUrl h
    revert h'
    decide
  refine ⟨by decide, by unfold IntsInRange; decide, hinvalid, by decide, hload,
    by simp [Storage.NewStorage, hload], by decide, ?_⟩
  intro hsame
  rcases hsame 1 with ⟨h1, _⟩ | ⟨x, y, hx, hy, _, hl⟩
  · revert h1; decide
  · have hx' : nilGet invalidUrlReloaded.state.LinksSets 1 =
        some ⟨1, some ⟨[(⟨[0xEF, 0xBF, 0xBD]⟩, StatusAvailable)]⟩⟩ := by decide
    have hy' : nilGet invalidUrlStore.state.LinksSets 1 =
        some ⟨1, some ⟨[(invalidUrl, StatusAvailable)]⟩⟩ := by decide
    rw [hx'] at hx
    rw [hy'] at hy
    cases hx
    cases hy
    have h := hl invalidUrl
    revert h
    decide

/-! ## Enqueue -/

/-- C3. When `isShuttingDown` is set (as it is after `Shutdown`), `Enqueue` returns an
error and the queue with its store (batches, counter, pending list), the snapshot file
and the channel are as before the call, whatever a write or a send would have done:
no marker is added and `Save` is not called. -/
theorem enqueue_rejected_when_shutting_down (q : Queue) (disk : Snapshot) (linksNum : Int)
    (url : GoString) (w : WriteOutcome) (sel : SendOutcome) (h : q.isShuttingDown = true) :
    ∃ e, q.Enqueue disk linksNum url w sel = (q, disk, .error e) := by
  refine ⟨"очередь останавливается", ?_⟩
  simp [Queue.Enqueue, h]

theorem enqueue_rejected_when_shutting_down_witness :
    stoppedQueue.isShuttingDown = true ∧
    ∃ e, stoppedQueue.Enqueue .missing 1 "a.com" .written .sent =
      (stoppedQueue, .missing, .error e) :=
  ⟨by decide, enqueue_rejected_when_shutting_down stoppedQueue .missing 1 "a.com" .written .sent
    (by decide)⟩

/-- What an `Enqueue` whose write goes through leaves. -/
theorem enqueue_accepted_records_step (q : Queue) (disk : Snapshot) (linksNum : Int)
    (url : GoString) (sel : SendOutcome) (h : q.isShuttingDown = false) :
    ∃ q1, q.Enqueue disk linksNum url .written sel =
        (q1, .data (.document (marshalState q1.storage.state)), .ok ()) ∧
      q1.storage.state.PendingTasks =
        some (q.storage.GetPendingTasks ++ [⟨linksNum, url, "pending"⟩]) ∧
      q1.storage.state.LinksSets = q.storage.state.LinksSets ∧
      q1.storage.state.NextLinksNum = q.storage.state.NextLinksNum ∧
      q1.taskChan = (match sel with
        | .sent => q.taskChan ++ [⟨linksNum, url⟩]
        | .timedOut => q.taskChan) ∧
      q1.isShuttingDown = false := by
  cases sel
  · refine ⟨{ q with
        storage := q.storage.AddPendingTask ⟨linksNum, url, "pending"⟩
        taskChan := q.taskChan ++ [⟨linksNum, url⟩] }, ?_, rfl, rfl, rfl, rfl, h⟩
    simp [Queue.Enqueue, h, Storage.Save]
  · refine ⟨{ q with storage := q.storage.AddPendingTask ⟨linksNum, url, "pending"⟩ },
      ?_, rfl, rfl, rfl, rfl, h⟩
    simp [Queue.Enqueue, h, Storage.Save]

/-- C4. When the queue is not shutting down and the write of `Save` goes through,
`Enqueue` returns no error whether the send went through or the wait elapsed; the
pending list is the former one with the marker (linksNum, url, "pending") appended,
the batches and the counter are unchanged, the snapshot file is the encoding of the new
state, and the channel received the task exactly when the send went through. -/
theorem enqueue_accepted_records_marker (q : Queue) (disk : Snapshot) (linksNum : Int)
    (url : GoString) (sel : SendOutcome) (h : q.isShuttingDown = false) :
    ∃ q1, q.Enqueue disk linksNum url .written sel =
        (q1, .data (.document (marshalState q1.storage.state)), .ok ()) ∧
      q1.storage.state.PendingTasks =
        some (q.storage.GetPendingTasks ++ [⟨linksNum, url, "pending"⟩]) ∧
      q1.storage.state.LinksSets = q.storage.state.LinksSets ∧
      q1.storage.state.NextLinksNum = q.storage.state.NextLinksNum ∧
      q1.taskChan = (match sel with
        | .sent => q.taskChan ++ [⟨linksNum, url⟩]
        | .timedOut => q.taskChan) ∧
      q1.isShuttingDown = false :=
  enqueue_accepted_records_step q disk linksNum url sel h

theorem enqueue_accepted_records_marker_witness :
    freshQueue.isShuttingDown = false ∧
    ∃ q1, freshQueue.Enqueue .missing 1 "a.com" .written .timedOut =
        (q1, .data (.document (marshalState q1.storage.state)), .ok ()) ∧
      q1.storage.state.PendingTasks =
        some (freshQueue.storage.GetPendingTasks ++ [⟨1, "a.com", "pending"⟩]) ∧
      q1.storage.state.LinksSets = freshQueue.storage.state.LinksSets ∧
      q1.storage.state.NextLinksNum = freshQueue.storage.state.NextLinksNum ∧
      q1.taskChan = freshQueue.taskChan ∧
      q1.isShuttingDown = false :=
  ⟨by decide, enqueue_accepted_records_marker freshQueue .missing 1 "a.com" .timedOut
    (by decide)⟩

/-- C10. When the queue is not shutting down and the write of `Save` fails, `Enqueue`
returns an error and sends nothing on the channel, but the pending list in memory ends
with the new marker: `GetPendingCount` is one more than before, and a later `Save`
whose write goes through stores the encoding of that state, whose `pending_tasks` ends
with the marker of the rejected call; when the integers of the state are in range and
its strings valid UTF-8, `Load` reads from that snapshot a pending list ending with
the marker. -/
theorem enqueue_save_failure_keeps_marker (q : Queue) (disk left : Snapshot) (linksNum : Int)
    (url : GoString) (sel : SendOutcome) (h : q.isShuttingDown = false) :
    ∃ q1 e, q.Enqueue disk linksNum url (.failed left) sel = (q1, left, .error e) ∧
      q1.taskChan = q.taskChan ∧
      q1.storage.GetPendingTasks = q.storage.GetPendingTasks ++ [⟨linksNum, url, "pending"⟩] ∧
      q1.GetPendingCount = q.GetPendingCount + 1 ∧
      q1.storage.Save .written = (.data (.document (marshalState q1.storage.state)), .ok ()) ∧
      (marshalState q1.storage.state).pending_tasks =
        some ((q.storage.GetPendingTasks ++ [(⟨linksNum, url, "pending"⟩ : PendingTask)]).map
          marshalPendingTask) ∧
      (IntsInRange q1.storage.state → ValidStrings q1.storage.state →
        ∃ s', (∀ other : Storage, Storage.Load other (q1.storage.Save .written).1 =
            (s', .ok ())) ∧
          s'.GetPendingTasks = q.storage.GetPendingTasks ++ [⟨linksNum, url, "pending"⟩]) := by
  refine ⟨{ q with storage := q.storage.AddPendingTask ⟨linksNum, url, "pending"⟩ },
    "не удалось сохранить состояние: " ++ "не удалось записать файл",
    by simp [Queue.Enqueue, h, Storage.Save], rfl, ?_, ?_, rfl, ?_, ?_⟩
  · simp [Storage.GetPendingTasks, Storage.AddPendingTask, sliceElems]
  · simp [Queue.GetPendingCount, Storage.GetPendingTasks, Storage.AddPendingTask, sliceElems]
  · simp [marshalState, marshalPendingTasks, Storage.AddPendingTask, Storage.GetPendingTasks]
  · intro hr hv
    obtain ⟨s', hload, _, _, hpend, _⟩ :=
      load_save (q.storage.AddPendingTask ⟨linksNum, url, "pending"⟩) hr hv
    refine ⟨s', hload, ?_⟩
    simp [Storage.GetPendingTasks, hpend, Storage.AddPendingTask, sliceElems]

theorem enqueue_save_failure_keeps_marker_witness :
    freshQueue.isShuttingDown = false ∧
    ∃ q1 e, freshQueue.Enqueue .missing 1 "a.com" (.failed .zeroBytes) .sent =
        (q1, .zeroBytes, .error e) ∧
      q1.taskChan = freshQueue.taskChan ∧
      q1.storage.GetPendingTasks =
        freshQueue.storage.GetPendingTasks ++ [⟨1, "a.com", "pending"⟩] ∧
      q1.GetPendingCount = freshQueue.GetPendingCount + 1 ∧
      q1.storage.Save .written = (.data (.document (marshalState q1.storage.state)), .ok ()) ∧
      (marshalState q1.storage.state).pending_tasks =
        some ((freshQueue.storage.GetPendingTasks ++
          [(⟨1, "a.com", "pending"⟩ : PendingTask)]).map marshalPendingTask) ∧
      (IntsInRange q1.storage.state → ValidStrings q1.storage.state →
        ∃ s', (∀ other : Storage, Storage.Load other (q1.storage.Save .written).1 =
            (s', .ok ())) ∧
          s'.GetPendingTasks =
            freshQueue.storage.GetPendingTasks ++ [⟨1, "a.com", "pending"⟩]) :=
  ⟨by decide, enqueue_save_failure_keeps_marker freshQueue .missing .zeroBytes 1 "a.com" .sent
    (by decide)⟩

/-! ## Restoring pending tasks -/

/-- The tasks of the markers whose status is "pending", in list order. -/
theorem restore_loop (ts : List PendingTask) :
    ∀ chan : List Task,
      ts.foldl
        (fun chan task =>
          if task.Status = ("pending" : GoString) then
            Queue.trySend chan ⟨task.LinksNum, task.URL⟩
          else chan)
        chan =
      chan ++ ((ts.filter (fun t => decide (t.Status = ("pending" : GoString)))).map
        (fun t => (⟨t.LinksNum, t.URL⟩ : Task))).take (taskChanCap - chan.length) := by
  induction ts with
  | nil => intro chan; simp
  | cons t rest ih =>
    intro chan
    simp only [List.foldl_cons]
    by_cases hp : t.Status = "pending"
    · simp only [hp, if_true, List.filter_cons, decide_True, List.map_cons]
      by_cases hroom : chan.length < taskChanCap
      · rw [Queue.trySend, if_pos hroom, ih]
        have : taskChanCap - chan.length = (taskChanCap - (chan ++ [(⟨t.LinksNum, t.URL⟩ : Task)]).length) + 1 := by
          simp only [List.length_append, List.length_singleton]; omega
        rw [this, List.take_succ_cons]
        simp
      · rw [Queue.trySend, if_neg hroom, ih]
        have : taskChanCap - chan.length = 0 := by omega
        simp [this]
    · simp only [hp, if_false, List.filter_cons, decide_False]
      exact ih chan

/-- C9. `restorePendingTasks` appends to the buffer of the channel, in list order, the
tasks of the first c markers whose status is "pending", c being the free room of the
buffer (capacity 100, nobody receiving); markers with another status and the pending
markers after the first c are not sent; the function is total (never blocks) and leaves
the store as it was, so `GetPendingTasks` still lists every marker. -/
theorem restorePendingTasks_pushes_first_free (q : Queue) :
    (q.restorePendingTasks).taskChan =
      q.taskChan ++ ((q.storage.GetPendingTasks.filter
          (fun t => decide (t.Status = ("pending" : GoString)))).map
        (fun t => (⟨t.LinksNum, t.URL⟩ : Task))).take (100 - q.taskChan.length) ∧
    (q.restorePendingTasks).storage = q.storage ∧
    (q.restorePendingTasks).storage.GetPendingTasks = q.storage.GetPendingTasks ∧
    (q.restorePendingTasks).isShuttingDown = q.isShuttingDown ∧
    q.Start = q.restorePendingTasks ∧
    (Queue.NewQueue q.storage q.workers).taskChan = [] := by
  refine ⟨?_, rfl, rfl, rfl, rfl, rfl⟩
  simp only [Queue.restorePendingTasks]
  exact restore_loop _ _

/-! ## The worker -/

theorem getPendingTasks_remove (s : Storage) (n : Int) (u : GoString) :
    (s.RemovePendingTask n u).GetPendingTasks = Storage.removeFirst n u s.GetPendingTasks := by
  cases hp : s.state.PendingTasks <;>
    simp [Storage.RemovePendingTask, Storage.GetPendingTasks, sliceElems, hp, Storage.removeFirst]

theorem getPendingTasks_update (s : Storage) (n : Int) (u : GoString) (st : LinkStatus) :
    (s.UpdateLinksSetStatus n u st).GetPendingTasks = s.GetPendingTasks := by
  simp [Storage.GetPendingTasks, updateLinksSetStatus_pending]

/-- What one receiving iteration of the worker leaves. -/
theorem workerStep_eq (q : Queue) (checkLink : GoString → LinkStatus) (w : WriteOutcome)
    (task : Task) (rest : List Task) (hchan : q.taskChan = task :: rest) :
    q.workerStep checkLink w =
      some ({ q with
              taskChan := rest
              storage := (q.storage.UpdateLinksSetStatus task.LinksNum task.URL
                (checkLink task.URL)).RemovePendingTask task.LinksNum task.URL },
            (((q.storage.UpdateLinksSetStatus task.LinksNum task.URL
                (checkLink task.URL)).RemovePendingTask task.LinksNum task.URL).Save w).1) := by
  simp [Queue.workerStep, hchan, Queue.updateTaskStatus]

theorem markerCount_cons (n : Int) (u : GoString) (t : PendingTask) (l : List PendingTask) :
    markerCount n u (t :: l) =
      markerCount n u l + (if t.LinksNum = n ∧ t.URL = u then 1 else 0) := by
  by_cases h : t.LinksNum = n ∧ t.URL = u
  · simp [markerCount, List.countP_cons, h]
  · have h' : t.LinksNum = n → ¬ t.URL = u := fun h1 h2 => h ⟨h1, h2⟩
    simp [markerCount, List.countP_cons, h, h']

theorem taskCount_cons (n : Int) (u : GoString) (t : Task) (l : List Task) :
    taskCount n u (t :: l) =
      taskCount n u l + (if t.LinksNum = n ∧ t.URL = u then 1 else 0) := by
  by_cases h : t.LinksNum = n ∧ t.URL = u
  · simp [taskCount, List.countP_cons, h]
  · have h' : t.LinksNum = n → ¬ t.URL = u := fun h1 h2 => h ⟨h1, h2⟩
    simp [taskCount, List.countP_cons, h, h']

theorem markerCount_append (n : Int) (u : GoString) (l1 l2 : List PendingTask) :
    markerCount n u (l1 ++ l2) = markerCount n u l1 + markerCount n u l2 := by
  simp [markerCount, List.countP_append]

theorem taskCount_append (n : Int) (u : GoString) (l1 l2 : List Task) :
    taskCount n u (l1 ++ l2) = taskCount n u l1 + taskCount n u l2 := by
  simp [taskCount, List.countP_append]

theorem removeFirst_present (n : Int) (u : GoString) (l : List PendingTask)
    (h : 0 < markerCount n u l) :
    markerCount n u (Storage.removeFirst n u l) + 1 = markerCount n u l ∧
      (Storage.removeFirst n u l).length + 1 = l.length := by
  induction l with
  | nil => simp [markerCount] at h
  | cons t rest ih =>
    by_cases ht : t.LinksNum = n ∧ t.URL = u
    · simp [Storage.removeFirst, markerCount_cons, ht]
    · have hrest : 0 < markerCount n u rest := by
        simpa [markerCount_cons, ht] using h
      obtain ⟨h1, h2⟩ := ih hrest
      simp only [Storage.removeFirst, if_neg ht, markerCount_cons, List.length_cons]
      omega

theorem removeFirst_other (n n' : Int) (u u' : GoString) (l : List PendingTask)
    (h : ¬ (n' = n ∧ u' = u)) :
    markerCount n' u' (Storage.removeFirst n u l) = markerCount n' u' l := by
  induction l with
  | nil => rfl
  | cons t rest ih =>
    by_cases ht : t.LinksNum = n ∧ t.URL = u
    · have hne : ¬ (t.LinksNum = n' ∧ t.URL = u') := by
        rintro ⟨h1, h2⟩
        exact h ⟨h1.symm.trans ht.1, h2.symm.trans ht.2⟩
      simp only [Storage.removeFirst, if_pos ht, markerCount_cons, if_neg hne, Nat.add_zero]
    · simp only [Storage.removeFirst, if_neg ht, markerCount_cons, ih]

/-- An accepted `Enqueue` keeps every buffered task covered by a marker and adds one
to the pending count. -/
theorem enqueue_step (q q1 : Queue) (disk disk1 : Snapshot) (linksNum : Int) (url : GoString)
    (sel : SendOutcome) (hcov : Covered q)
    (h : q.Enqueue disk linksNum url .written sel = (q1, disk1, .ok ())) :
    Covered q1 ∧ q1.GetPendingCount = q.GetPendingCount + 1 := by
  by_cases hs : q.isShuttingDown = true
  · simp [Queue.Enqueue, hs] at h
  · have hs' : q.isShuttingDown = false := by simpa using hs
    obtain ⟨q2, heq, hpend, _, _, hchan, _⟩ :=
      enqueue_accepted_records_step q disk linksNum url sel hs'
    rw [heq] at h
    obtain ⟨rfl, _⟩ := Prod.mk.inj h
    have hget : q2.storage.GetPendingTasks =
        q.storage.GetPendingTasks ++ [⟨linksNum, url, "pending"⟩] := by
      simp [Storage.GetPendingTasks, hpend, sliceElems]
    refine ⟨?_, by simp [Queue.GetPendingCount, hget]⟩
    intro n u
    have hq := hcov n u
    rw [hget, hchan]
    cases sel with
    | sent =>
      simp only [taskCount_append, markerCount_append, taskCount_cons, markerCount_cons]
      have e1 : taskCount n u [] = 0 := rfl
      have e2 : markerCount n u [] = 0 := rfl
      rw [e1, e2]
      by_cases hk : linksNum = n ∧ url = u
      · simp only [if_pos hk]; omega
      · simp only [if_neg hk]; omega
    | timedOut =>
      simp only [markerCount_append]
      omega

/-- A worker step keeps every buffered task covered by a marker and takes one from the
pending count. -/
theorem worker_step (q q1 : Queue) (disk1 : Snapshot) (checkLink : GoString → LinkStatus)
    (w : WriteOutcome) (hcov : Covered q) (h : q.workerStep checkLink w = some (q1, disk1)) :
    Covered q1 ∧ q1.GetPendingCount + 1 = q.GetPendingCount := by
  cases hchan : q.taskChan with
  | nil => simp [Queue.workerStep, hchan] at h
  | cons task rest =>
    rw [workerStep_eq q checkLink w task rest hchan] at h
    obtain ⟨rfl, _⟩ := Prod.mk.inj (Option.some.inj h)
    have hget : ((q.storage.UpdateLinksSetStatus task.LinksNum task.URL
        (checkLink task.URL)).RemovePendingTask task.LinksNum task.URL).GetPendingTasks =
        Storage.removeFirst task.LinksNum task.URL q.storage.GetPendingTasks := by
      rw [getPendingTasks_remove, getPendingTasks_update]
    have hhead := hcov task.LinksNum task.URL
    rw [hchan] at hhead
    have hpos : 0 < markerCount task.LinksNum task.URL q.storage.GetPendingTasks := by
      rw [taskCount_cons, if_pos ⟨rfl, rfl⟩] at hhead
      omega
    obtain ⟨hc, hl⟩ := removeFirst_present _ _ _ hpos
    refine ⟨?_, by simp only [Queue.GetPendingCount, hget]; exact hl⟩
    intro n u
    have hq := hcov n u
    rw [hchan] at hq
    show taskCount n u rest ≤ markerCount n u _
    rw [hget]
    by_cases hk : n = task.LinksNum ∧ u = task.URL
    · obtain ⟨rfl, rfl⟩ := hk
      rw [taskCount_cons, if_pos ⟨rfl, rfl⟩] at hq
      omega
    · rw [removeFirst_other _ _ _ _ _ hk]
      have hk' : ¬ (task.LinksNum = n ∧ task.URL = u) := fun h' => hk ⟨h'.1.symm, h'.2.symm⟩
      rw [taskCount_cons, if_neg hk'] at hq
      omega

/-- Along a run, the pending count goes up by the accepted `Enqueue` calls and down by
the completed tasks. -/
theorem runQueue_count (evs : List QEvent) :
    ∀ (c c1 : Queue × Snapshot), Covered c.1 → runQueue c evs = some c1 →
      Covered c1.1 ∧
      c1.1.GetPendingCount + countCompleted evs = c.1.GetPendingCount + countEnqueued evs := by
  induction evs with
  | nil =>
    intro c c1 hcov hrun
    simp only [runQueue, Option.some.injEq] at hrun
    subst hrun
    exact ⟨hcov, rfl⟩
  | cons ev rest ih =>
    intro c c1 hcov hrun
    obtain ⟨q, disk⟩ := c
    cases ev with
    | enqueue linksNum url sel =>
      simp only [runQueue] at hrun
      cases hen : q.Enqueue disk linksNum url .written sel with
      | mk q2 r =>
        obtain ⟨disk2, res⟩ := r
        rw [hen] at hrun
        cases res with
        | error e => simp at hrun
        | ok u =>
          simp only at hrun
          obtain ⟨hc2, hn2⟩ := enqueue_step q q2 disk disk2 linksNum url sel hcov hen
          obtain ⟨hc1, hn1⟩ := ih (q2, disk2) c1 hc2 hrun
          refine ⟨hc1, ?_⟩
          simp only [countCompleted, countEnqueued] at hn1 ⊢
          omega
    | work checkLink w =>
      simp only [runQueue] at hrun
      cases hw : q.workerStep checkLink w with
      | none => simp [hw] at hrun
      | some c2 =>
        obtain ⟨q2, disk2⟩ := c2
        rw [hw] at hrun
        simp only at hrun
        obtain ⟨hc2, hn2⟩ := worker_step q q2 disk2 checkLink w hcov hw
        obtain ⟨hc1, hn1⟩ := ih (q2, disk2) c1 hc2 hrun
        refine ⟨hc1, ?_⟩
        simp only [countCompleted, countEnqueued] at hn1 ⊢
        omega

/-- C8. In the sequential reading of the queue, from a started queue on a store with an
empty pending list: after a run with n accepted `Enqueue` calls (the same pair may be
enqueued several times) and k completed worker steps, k is at most n and
`GetPendingCount` returns n - k; so it is 2 after two calls with nothing completed and
0 once every enqueued task is completed. -/
theorem getPendingCount_enqueued_minus_completed (st : Storage) (workers : Nat)
    (disk : Snapshot) (evs : List QEvent) (q : Queue)
    (hempty : st.GetPendingTasks = [])
    (hrun : (runQueue ((Queue.NewQueue st workers).Start, disk) evs).map Prod.fst = some q) :
    countCompleted evs ≤ countEnqueued evs ∧
      q.GetPendingCount = countEnqueued evs - countCompleted evs ∧
      (countCompleted evs = 0 → q.GetPendingCount = countEnqueued evs) ∧
      (countCompleted evs = countEnqueued evs → q.GetPendingCount = 0) := by
  cases hr : runQueue ((Queue.NewQueue st workers).Start, disk) evs with
  | none => simp [hr] at hrun
  | some c1 =>
    rw [hr] at hrun
    simp only [Option.map_some', Option.some.injEq] at hrun
    have hstart : (Queue.NewQueue st workers).Start =
        { storage := st, workers := workers, taskChan := [], isShuttingDown := false,
          cancelled := false } := by
      simp [Queue.Start, Queue.restorePendingTasks, Queue.NewQueue, hempty]
    have hcov : Covered ((Queue.NewQueue st workers).Start, disk).1 := by
      intro n u
      simp [hstart, taskCount]
    obtain ⟨_, hn⟩ := runQueue_count evs _ c1 hcov hr
    have h0 : ((Queue.NewQueue st workers).Start, disk).1.GetPendingCount = 0 := by
      simp [hstart, Queue.GetPendingCount, hempty]
    rw [h0, hrun] at hn
    omega

theorem getPendingCount_enqueued_minus_completed_witness :
    (⟨Storage.initialState⟩ : Storage).GetPendingTasks = [] ∧
    (runQueue ((Queue.NewQueue ⟨Storage.initialState⟩ 1).Start, .missing)
        twoTasksCompleted).map Prod.fst = some freshQueue ∧
    (countCompleted twoTasksCompleted ≤ countEnqueued twoTasksCompleted ∧
      freshQueue.GetPendingCount =
        countEnqueued twoTasksCompleted - countCompleted twoTasksCompleted ∧
      (countCompleted twoTasksCompleted = 0 →
        freshQueue.GetPendingCount = countEnqueued twoTasksCompleted) ∧
      (countCompleted twoTasksCompleted = countEnqueued twoTasksCompleted →
        freshQueue.GetPendingCount = 0)) :=
  ⟨by decide, by decide,
    getPendingCount_enqueued_minus_completed ⟨Storage.initialState⟩ 1 .missing
      twoTasksCompleted freshQueue (by decide) (by decide)⟩

end LinkCheck
